import Mathlib
inductive Err where
  | InvalidVersion (v : Nat)
  | InvalidKeySize
  | Authentication
  | Encryption
  | Rand
  | CounterOverflow
  | ShortWrite (n : Nat)
  | UnexpectedEof (n : Nat)
deriving DecidableEq

/-- Stream versions, `src/version.rs`. -/
inductive Version where
  | One
  | Two
deriving DecidableEq

/-- Numeric value of a version (`Version as u32`). -/
def Version.toNat : Version → Nat
  | .One => 1
  | .Two => 2

/-- Big-endian 4-byte encoding of a `u32` value (`u32::to_be_bytes`). -/
def u32be (x : Nat) : List Nat :=
  [x / 2 ^ 24 % 256, x / 2 ^ 16 % 256, x / 2 ^ 8 % 256, x % 256]

/-- Version header bytes (`Version::to_bytes`). -/
def Version.toBytes (v : Version) : List Nat := u32be v.toNat

/-- Big-endian decoding of 4 bytes (`u32::from_be_bytes`); other shapes maps
to 0 (unreachable: the reader always passes exactly 4 bytes). -/
def u32ofBE : List Nat → Nat
  | [a, b, c, d] => ((a * 256 + b) * 256 + c) * 256 + d
  | _ => 0

/-- Version validation (`TryFrom<u32> for Version`). -/
def versionTryFrom (x : Nat) : Except Err Version :=
  if x = 1 then .ok .One else if x = 2 then .ok .Two
  else .error (.InvalidVersion x)

/-- Largest `u32` value; `checked_add(1)` fails exactly here. -/
def u32Max : Nat := 4294967295

/-- A chunk nonce: random per-stream prefix bytes, the 4-byte big-endian
counter value, and the EOF byte.  `src/writer.rs` and `src/reader.rs` keep
these as one byte array `nonce[0 .. NONCE_SIZE]`; the three regions are
disjoint and only ever accessed as a whole field each
(prefix written once at construction, counter via `BigEndian::read_u32` /
`write_u32` on `nonce[CTR_IDX..EOF_IDX]`, EOF byte via `nonce[EOF_IDX] = 1`),
so the structured form is a faithful embedding. -/
structure NonceV where
  pfx : List Nat
  ctr : Nat
  eofB : Nat
deriving DecidableEq

/-- The keyed AEAD dependency (`aead::AeadInPlace` after `A::new(key)`):
`enc` returns the ciphertext (same length as the plaintext, written in place
in the source) and the detached tag; `dec` verifies and returns the
plaintext, or `none` on authentication failure. -/
structure AeadAlg where
  tagSize : Nat
  nonceSize : Nat
  enc : NonceV → List Nat → List Nat → List Nat × List Nat
  dec : NonceV → List Nat → List Nat → List Nat → Option (List Nat)

/-- Contract of the AEAD dependency (§6 of the spec): ciphertext length
equals plaintext length, tags have length `tagSize`, and authenticated
decryption succeeds exactly on the output of encryption under the same
nonce and associated data (the last conjunct is the idealised authenticity
assumption: encryption is injective in (nonce, plaintext) for fixed
associated data, so a ciphertext cannot verify under two nonces). -/
def AeadOk (A : AeadAlg) : Prop :=
  (∀ nn ad p, ((A.enc nn ad p).1).length = p.length) ∧
  (∀ nn ad p, ((A.enc nn ad p).2).length = A.tagSize) ∧
  (∀ nn ad ct tg p, A.dec nn ad ct tg = some p ↔ A.enc nn ad p = (ct, tg)) ∧
  (∀ nn nn' ad p p', A.enc nn ad p = A.enc nn' ad p' → nn = nn' ∧ p = p')

/-- Injective encoding of a byte list into one `Nat`, used by the concrete
witness AEAD below to build tags that determine their inputs. -/
def encL (l : List Nat) : Nat :=
  l.foldr (fun a r => Nat.pair a r + 1) 0

/-- Witness tag: a single "byte" determining nonce, associated data and
plaintext. -/
def mkTag (nn : NonceV) (ad p : List Nat) : Nat :=
  Nat.pair (encL nn.pfx)
    (Nat.pair nn.ctr (Nat.pair nn.eofB (Nat.pair (encL ad) (encL p))))

/-- A concrete AEAD instance satisfying `AeadOk`, used for witnesses and
counterexamples: the ciphertext is the plaintext itself and the tag is the
injective `mkTag` digest. -/
def mockAead : AeadAlg where
  tagSize := 1
  nonceSize := 5
  enc := fun nn ad p => (p, [mkTag nn ad p])
  dec := fun nn ad ct tg => if tg = [mkTag nn ad ct] then some ct else none

/-! ### Buf (`src/buf.rs`) -/

/-- Fixed-length buffer: contents are `data[read..write]`.  The Rust array
`[u8; N]` becomes a list of length `N`; the capacity `N` is passed to the
operations that need it. -/
structure Buf where
  data : List Nat
  read : Nat
  write : Nat
deriving DecidableEq

/-- Overwrite `l[i .. i + s.length]` with `s` (models writing into a
sub-slice of the backing array). -/
def setRange (l : List Nat) (i : Nat) (s : List Nat) : List Nat :=
  l.take i ++ s ++ l.drop (i + s.length)

/-- Buf::new. -/
def bufNew (N : Nat) : Buf := ⟨List.replicate N 0, 0, 0⟩

/-- Buf::len: number of unread bytes. -/
def bufLen (b : Buf) : Nat := b.write - b.read

/-- Buf::is_full (capacity `N`). -/
def bufIsFull (N : Nat) (b : Buf) : Bool := bufLen b == N

/-- Buf::reset. -/
def bufReset (b : Buf) : Buf := { b with read := 0, write := 0 }

/-- Buf::truncate. -/
def bufTruncate (b : Buf) (n : Nat) : Buf :=
  if n = 0 then bufReset b else { b with write := b.read + n }

/-- Buf::remaining_slice: the unread portion `data[read..write]`. -/
def bufContents (b : Buf) : List Nat :=
  (b.data.drop b.read).take (b.write - b.read)

/-- Read for Buf: copy `min(len, dlen)` unread bytes out, advance `read`.
Returns the bytes delivered (the destination slice's filled prefix). -/
def bufRead (b : Buf) (dlen : Nat) : List Nat × Buf :=
  let src := bufContents b
  let n := min src.length dlen
  (src.take n, { b with read := b.read + n })

/-- Write for Buf: copy `min(N - write, |s|)` bytes into
`data[write..]`, advance `write`. -/
def bufWrite (N : Nat) (b : Buf) (s : List Nat) : Nat × Buf :=
  let n := min (N - b.write) s.length
  (n, { b with
        data := setRange b.data b.write (s.take n)
        write := b.write + n })

/-- Buf::write_to with the crate's `Vec<u8>` sink (which accepts every
byte): the loop pushes the whole unread region in one call, so `read`
advances to `write`; if no progress was made (buffer already empty) both
cursors are reset.  Returns the bytes pushed and the new buffer. -/
def bufWriteToVec (b : Buf) : List Nat × Buf :=
  if bufLen b = 0 then ([], bufReset b)
  else (bufContents b, { b with read := b.write })

/-- Buf::read_from with the crate's `&[u8]` source: each iteration the
source fills `min(N - write, |s|)` bytes of `remaining_capacity_mut`
(`data[write..]`) and the loop repeats until the buffer is full or the
source returns 0.  Fuel-indexed; `none` means the fuel ran out (never
happens with fuel `|s| + 2`, proved below).  Returns (bytes pulled, buffer,
remaining source). -/
def readFromAux (N : Nat) : Nat → Buf → List Nat → Option (Nat × Buf × List Nat)
  | 0, _, _ => none
  | fuel + 1, b, s =>
    if bufLen b = N then some (0, b, s)
    else
      let m := min (N - b.write) s.length
      if m = 0 then some (0, b, s)
      else
        match readFromAux N fuel
            { b with
              data := setRange b.data b.write (s.take m)
              write := b.write + m } (s.drop m) with
        | none => none
        | some (n, b', s') => some (m + n, b', s')

/-! ### Writer (`src/writer.rs`) -/

/-- Writer state.  `out` is the byte sink (the crate's `Vec<u8>` sink, which
accepts everything); `pfx`, `ad`, `ver` are the construction-time fields;
`ctr` and `eofB` are the counter and EOF regions of the nonce byte array.
`nonces` is a ghost observation: the list of nonces passed to
`encrypt_in_place_detached`, in order. -/
structure WState where
  out : List Nat
  ctr : Nat
  eofB : Nat
  buf : Buf
  pfx : List Nat
  ad : List Nat
  ver : Version
  nonces : List NonceV
deriving DecidableEq

/-- Writer::flush_internal: encrypt the staged plaintext in place under the
current nonce (EOF byte forced to 1 first when `eof`), push ciphertext then
tag to the sink, then increment the counter (unless `eof`) and reset the
buffer.  `checked_add` fails at `u32Max` with `CounterOverflow`; the error
is returned after the chunk reached the sink and before the buffer reset,
exactly as in the source. -/
def flushInternal (A : AeadAlg) (w : WState) (eof : Bool) :
    WState × Except Err Nat :=
  let eofB1 := if eof then 1 else w.eofB
  let nn : NonceV := ⟨w.pfx, w.ctr, eofB1⟩
  let pt := bufContents w.buf
  let ct := (A.enc nn w.ad pt).1
  let tag := (A.enc nn w.ad pt).2
  let b1 : Buf := { w.buf with data := setRange w.buf.data w.buf.read ct }
  let sent := (bufWriteToVec b1).1
  let b2 := (bufWriteToVec b1).2
  let w1 := { w with
              eofB := eofB1
              out := w.out ++ sent ++ tag
              buf := b2
              nonces := w.nonces ++ [nn] }
  if eof then
    ({ w1 with buf := bufReset w1.buf }, .ok (sent.length + tag.length))
  else if w.ctr = u32Max then (w1, .error .CounterOverflow)
  else
    ({ w1 with ctr := w.ctr + 1, buf := bufReset w1.buf },
      .ok (sent.length + tag.length))

/-- Writer::do_write's loop, fuel-indexed.  Version 1 flushes a full buffer
before appending; version 2 appends first and flushes immediately when the
buffer becomes full.  Each iteration appends `min(C - write, |s|)` bytes.
An error from `flush_internal` propagates with the partially mutated
state. -/
def doWriteAux (A : AeadAlg) (C : Nat) :
    Nat → WState → List Nat → Option (WState × Except Err Unit)
  | 0, _, _ => none
  | fuel + 1, w, s =>
    if s = [] then some (w, .ok ())
    else
      match w.ver with
      | .One =>
        match (if bufIsFull C w.buf then flushInternal A w false
               else (w, .ok 0)) with
        | (w1, .error e) => some (w1, .error e)
        | (w1, .ok _) =>
          let k := (bufWrite C w1.buf s).1
          let b1 := (bufWrite C w1.buf s).2
          doWriteAux A C fuel { w1 with buf := b1 } (s.drop k)
      | .Two =>
        let k := (bufWrite C w.buf s).1
        let b1 := (bufWrite C w.buf s).2
        let w1 := { w with buf := b1 }
        match (if bufIsFull C w1.buf then flushInternal A w1 false
               else (w1, .ok 0)) with
        | (w2, .error e) => some (w2, .error e)
        | (w2, .ok _) => doWriteAux A C fuel w2 (s.drop k)

/-- Writer::do_write.  Fuel `|s| + 2` always suffices (each productive
iteration consumes at least one byte when `C ≥ 1`). -/
def doWrite (A : AeadAlg) (C : Nat) (w : WState) (s : List Nat) :
    Option (WState × Except Err Unit) :=
  doWriteAux A C (s.length + 2) w s

/-- Writer::do_flush: emit the terminal chunk with the EOF nonce. -/
def doFlush (A : AeadAlg) (w : WState) : WState × Except Err Unit :=
  ((flushInternal A w true).1, (flushInternal A w true).2.map fun _ => ())

/-- Writer::new_with, with the CSPRNG outputs (salt, nonce prefix) passed
in: the header (version bytes, salt, nonce prefix) is pushed to the sink
and the state initialised. -/
def wInit (C : Nat) (ver : Version) (ad salt pfxv : List Nat) : WState :=
  { out := Version.toBytes ver ++ salt ++ pfxv, ctr := 0, eofB := 0,
    buf := bufNew C, pfx := pfxv, ad := ad, ver := ver, nonces := [] }

/-- Run a sequence of `do_write` calls, stopping at the first error. -/
def runWrites (A : AeadAlg) (C : Nat) :
    WState → List (List Nat) → Option (WState × Except Err Unit)
  | w, [] => some (w, .ok ())
  | w, s :: ss =>
    match doWrite A C w s with
    | none => none
    | some (w1, .error e) => some (w1, .error e)
    | some (w1, .ok _) => runWrites A C w1 ss

/-- One full writer lifecycle: construction, a sequence of writes, one
flush. -/
def writerRun (A : AeadAlg) (C : Nat) (ver : Version)
    (ad salt pfxv : List Nat) (splits : List (List Nat)) :
    Option (WState × Except Err Unit) :=
  match runWrites A C (wInit C ver ad salt pfxv) splits with
  | none => none
  | some (w, .error e) => some (w, .error e)
  | some (w, .ok _) => some (doFlush A w)

/-- The ciphertext a successful writer lifecycle leaves in the sink. -/
def writerOut (A : AeadAlg) (C : Nat) (ver : Version)
    (ad salt pfxv : List Nat) (splits : List (List Nat)) :
    Option (List Nat) :=
  match writerRun A C ver ad salt pfxv splits with
  | some (w, .ok _) => some w.out
  | _ => none

/-- The nonces a successful writer lifecycle passed to the AEAD. -/
def writerNonces (A : AeadAlg) (C : Nat) (ver : Version)
    (ad salt pfxv : List Nat) (splits : List (List Nat)) :
    Option (List NonceV) :=
  match writerRun A C ver ad salt pfxv splits with
  | some (w, .ok _) => some w.nonces
  | _ => none

/-- Writer::size (`src/writer.rs` lines 110-121):
`nchunks = ceil(n / C)`, plus one when the version is Two and `n` is a
multiple of `C`; `mem::size_of::<Version>() = 4`. -/
def WriterSize (A : AeadAlg) (C : Nat) (n : Nat) (ver : Version) : Nat :=
  let nchunks := (n + C - 1) / C +
    (match ver with
     | .Two => if n % C = 0 then 1 else 0
     | .One => 0)
  4 + 32 + (A.nonceSize - 5) + n + nchunks * A.tagSize

/-! ### Reader (`src/reader.rs`) -/

/-- Reader state.  `src` is the remaining bytes of the underlying `&[u8]`
source; the buffer has capacity `C + tagSize`. -/
structure RState where
  src : List Nat
  ctr : Nat
  eofB : Nat
  buf : Buf
  eof : Bool
  pfx : List Nat
  ad : List Nat
  ver : Version
deriving DecidableEq

/-- Read::read_exact over the `&[u8]` source: the `read_full` loop obtains
`min(n, |s|)` bytes; fewer than `n` fails with `UnexpectedEof` carrying the
byte count obtained. -/
def readExact (s : List Nat) (n : Nat) : Except Err (List Nat × List Nat) :=
  if n ≤ s.length then .ok (s.take n, s.drop n)
  else .error (.UnexpectedEof s.length)

/-- Reader::new_with: parse version (4 bytes, validated), salt (32 bytes,
consumed by HKDF only), nonce prefix (`nonceSize - 5` bytes); the rest of
the nonce is zero and `eof = false`. -/
def rInit (A : AeadAlg) (C : Nat) (s ad : List Nat) : Except Err RState := do
  let (vb, s1) ← readExact s 4
  let ver ← versionTryFrom (u32ofBE vb)
  let (_salt, s2) ← readExact s1 32
  let (p, s3) ← readExact s2 (A.nonceSize - 5)
  pure { src := s3, ctr := 0, eofB := 0, buf := bufNew (C + A.tagSize),
         eof := false, pfx := p, ad := ad, ver := ver }

/-- Tail of Reader::do_read after a successful decryption (`pt`): write the
plaintext back in place, increment the counter unless this was the EOF
chunk (`checked_add` fails at `u32Max` after the in-place decryption, with
the buffer not yet truncated), drop the tag via `truncate`, and serve the
first read from the staged plaintext. -/
def readFinish (A : AeadAlg) (r : RState) (s' : List Nat) (b3 : Buf)
    (n : Nat) (eof1 : Bool) (eofB1 : Nat) (pt : List Nat) (d : Nat) :
    RState × Except Err (List Nat) :=
  let b4 : Buf := { b3 with data := setRange b3.data b3.read pt }
  if eof1 = false ∧ r.ctr = u32Max then
    ({ r with buf := b4, src := s', eof := eof1, eofB := eofB1 },
      .error .CounterOverflow)
  else
    let ctr' := if eof1 then r.ctr else r.ctr + 1
    let b5 := bufTruncate b4 (n - A.tagSize)
    ({ r with
       src := s'
       ctr := ctr'
       eofB := eofB1
       eof := eof1
       buf := (bufRead b5 d).2 }, .ok (bufRead b5 d).1)

/-- Reader::do_read.  In order: serve staged plaintext if any (returning 0
only for an empty destination or at EOF; the `assert!(self.buf.is_empty())`
is modelled as `none` = panic when it would fail); otherwise reset the
buffer and pull one chunk from the source; fail `Authentication` if fewer
than `tagSize` bytes arrived; a short chunk marks EOF and sets the nonce
EOF byte; decrypt; on failure, a version-1 stream that is not at EOF gets
exactly one retry under the EOF nonce (setting `eof`); an `Authentication`
error returns with the buffer still holding the unverified chunk bytes
(cursors untouched since the fill), as in the source. -/
def doRead (A : AeadAlg) (C : Nat) (r : RState) (d : Nat) :
    Option (RState × Except Err (List Nat)) :=
  let N := C + A.tagSize
  let taken := (bufRead r.buf d).1
  let b1 := (bufRead r.buf d).2
  if taken.length = 0 ∧ (d = 0 ∨ r.eof = true) then
    some ({ r with buf := b1 }, .ok [])
  else if taken.length ≠ 0 then some ({ r with buf := b1 }, .ok taken)
  else if bufLen r.buf ≠ 0 then none
  else
    match readFromAux N (r.src.length + 2) (bufReset b1) r.src with
    | none => none
    | some (n, b3, s') =>
      if n < A.tagSize then
        some ({ r with buf := b3, src := s' }, .error .Authentication)
      else
        let eof1 : Bool := decide (n < N)
        let eofB1 := if eof1 then 1 else r.eofB
        let ct := (bufContents b3).take (n - A.tagSize)
        let tg := (bufContents b3).drop (n - A.tagSize)
        match A.dec ⟨r.pfx, r.ctr, eofB1⟩ r.ad ct tg with
        | some pt => some (readFinish A r s' b3 n eof1 eofB1 pt d)
        | none =>
          if r.ver = .One ∧ eof1 = false then
            match A.dec ⟨r.pfx, r.ctr, 1⟩ r.ad ct tg with
            | some pt => some (readFinish A r s' b3 n true 1 pt d)
            | none =>
              some ({ r with buf := b3, src := s', eof := true, eofB := 1 },
                .error .Authentication)
          else
            some
              ({ r with buf := b3, src := s', eof := eof1, eofB := eofB1 },
                .error .Authentication)

/-- Repeatedly call `do_read` with a destination of size `d`, concatenating
the delivered bytes, until a read delivers nothing (EOF) or fails. -/
def drain (A : AeadAlg) (C : Nat) :
    Nat → RState → Nat → Option (List Nat × RState)
  | 0, _, _ => none
  | fuel + 1, r, d =>
    match doRead A C r d with
    | some (r', .ok bs) =>
      if bs = [] then some ([], r')
      else
        match drain A C fuel r' d with
        | none => none
        | some (acc, rf) => some (bs ++ acc, rf)
    | _ => none

/-! ### Specification-level descriptions of the wire stream

These are used to state and prove the characterisation of the writer's
output and to drive the reader correctness proof; they are derived, not
part of the embedding. -/

/-- Bytes of one chunk on the wire: ciphertext followed by detached tag. -/
def encChunk (A : AeadAlg) (nn : NonceV) (ad p : List Nat) : List Nat :=
  (A.enc nn ad p).1 ++ (A.enc nn ad p).2

/-- Wire bytes of a run of non-final chunks, counters from `c`. -/
def encNF (A : AeadAlg) (pfxv ad : List Nat) : Nat → List (List Nat) → List Nat
  | _, [] => []
  | c, p :: ps => encChunk A ⟨pfxv, c, 0⟩ ad p ++ encNF A pfxv ad (c + 1) ps

/-- Wire bytes of a full chunk sequence: every chunk non-final except the
last, which carries the EOF nonce. -/
def encChunksF (A : AeadAlg) (pfxv ad : List Nat) :
    Nat → List (List Nat) → List Nat
  | _, [] => []
  | c, [p] => encChunk A ⟨pfxv, c, 1⟩ ad p
  | c, p :: q :: ps =>
    encChunk A ⟨pfxv, c, 0⟩ ad p ++ encChunksF A pfxv ad (c + 1) (q :: ps)

/-- Split a list into consecutive `C`-sized blocks (callers only use it on
lists whose length is a multiple of `C`). -/
def exactChunks (C : Nat) (l : List Nat) : List (List Nat) :=
  if C = 0 ∨ l = [] then [] else l.take C :: exactChunks C (l.drop C)
termination_by l.length
decreasing_by
  simp only [not_or] at *
  rename_i h
  have h1 : l ≠ [] := h.2
  have h2 : 0 < C := Nat.pos_of_ne_zero h.1
  have h3 : 0 < l.length := List.length_pos.mpr h1
  simp only [List.length_drop]
  omega

/-- Plaintext length of the final chunk a version-1 writer leaves pending
after consuming `n` bytes (0 only for `n = 0`; `C` exactly when `n` is a
positive multiple of `C`). -/
def lastLen (C n : Nat) : Nat := if n = 0 then 0 else (n - 1) % C + 1

/-- Number of plaintext bytes emitted as non-final chunks after the writer
consumed `n` bytes: version 2 flushes every completed block, version 1
keeps the last block (even when exactly full) pending. -/
def takeCount (ver : Version) (C n : Nat) : Nat :=
  match ver with
  | .Two => n / C * C
  | .One => n - lastLen C n

/-- The chunk plaintexts of a complete stream for plaintext `P`: the
non-final blocks followed by the final (possibly empty, possibly — under
version 1 — exactly full) chunk. -/
def streamPts (ver : Version) (C : Nat) (P : List Nat) : List (List Nat) :=
  exactChunks C (P.take (takeCount ver C P.length)) ++
    [P.drop (takeCount ver C P.length)]

/-- Clean writer state: buffer `read` cursor at 0 (the writer's buffer is
always fully drained by `write_to` and reset), contents within capacity,
intact backing array, non-EOF nonce, in-range counter. -/
def WClean (C : Nat) (w : WState) : Prop :=
  w.buf.read = 0 ∧ w.buf.write ≤ C ∧ w.buf.data.length = C ∧
    w.eofB = 0 ∧ w.ctr ≤ u32Max

/-- Cursor well-formedness of a buffer of capacity `N` (§4.1 of the spec:
read ≤ write ≤ N). -/
def BufWf (N : Nat) (b : Buf) : Prop := b.read ≤ b.write ∧ b.write ≤ N

/-- Closed form of the chunk-refill path of `do_read` (entered when the
staging buffer is drained, EOF not reached and the destination is
non-empty): pull `min(C + tagSize, |src|)` bytes, then verify/decrypt as in
`doRead`.  `doRead_refill_eq` below proves `doRead` equal to this. -/
def doReadChunk (A : AeadAlg) (C : Nat) (r : RState) (d : Nat) :
    RState × Except Err (List Nat) :=
  let N := C + A.tagSize
  let n := min N r.src.length
  let b3 : Buf := ⟨r.src.take n ++ r.buf.data.drop n, 0, n⟩
  let s' := r.src.drop n
  if n < A.tagSize then ({ r with buf := b3, src := s' }, .error .Authentication)
  else
    let eof1 : Bool := decide (n < N)
    let eofB1 := if eof1 then 1 else r.eofB
    let ct := (r.src.take n).take (n - A.tagSize)
    let tg := (r.src.take n).drop (n - A.tagSize)
    match A.dec ⟨r.pfx, r.ctr, eofB1⟩ r.ad ct tg with
    | some pt => readFinish A r s' b3 n eof1 eofB1 pt d
    | none =>
      if r.ver = .One ∧ eof1 = false then
        match A.dec ⟨r.pfx, r.ctr, 1⟩ r.ad ct tg with
        | some pt => readFinish A r s' b3 n true 1 pt d
        | none =>
          ({ r with buf := b3, src := s', eof := true, eofB := 1 },
            .error .Authentication)
      else
        ({ r with buf := b3, src := s', eof := eof1, eofB := eofB1 },
          .error .Authentication)

/-- Mid-stream reader invariant: the reader is at counter `c`, the staging
buffer holds the still-undelivered plaintext `rem` of the last verified
chunk, and the source holds exactly the encoded chunks `pts` (final one
EOF-marked).  `pts = []` means the EOF chunk has been processed. -/
def RMid (A : AeadAlg) (C : Nat) (r : RState) (c : Nat) (rem : List Nat)
    (pts : List (List Nat)) : Prop :=
  r.ctr = c ∧
  r.src = encChunksF A r.pfx r.ad c pts ∧
  bufContents r.buf = rem ∧
  r.buf.read ≤ r.buf.write ∧
  r.buf.write ≤ r.buf.data.length ∧
  r.buf.data.length = C + A.tagSize ∧
  (pts = [] → r.eof = true) ∧
  (pts ≠ [] → r.eof = false ∧ r.eofB = 0)

/-! ### Decidability instances (for concrete witness evaluation) -/

instance {e a : Type} [DecidableEq e] [DecidableEq a] :
    DecidableEq (Except e a)
  | .ok x, .ok y =>
    if h : x = y then .isTrue (by rw [h])
    else .isFalse (fun hh => by cases hh; exact h rfl)
  | .ok _, .error _ => .isFalse (fun hh => by cases hh)
  | .error _, .ok _ => .isFalse (fun hh => by cases hh)
  | .error x, .error y =>
    if h : x = y then .isTrue (by rw [h])
    else .isFalse (fun hh => by cases hh; exact h rfl)

instance (N : Nat) (b : Buf) : Decidable (BufWf N b) :=
  inferInstanceAs (Decidable (b.read ≤ b.write ∧ b.write ≤ N))

instance (C : Nat) (w : WState) : Decidable (WClean C w) :=
  inferInstanceAs (Decidable (_ ∧ _ ∧ _ ∧ _ ∧ _))

/-! ## Basic buffer lemmas -/

theorem setRange_zero (l s : List Nat) :
    setRange l 0 s = s ++ l.drop s.length := by
  simp [setRange]

theorem setRange_length (l s : List Nat) (i : Nat)
    (h : i + s.length ≤ l.length) :
    (setRange l i s).length = l.length := by
  simp only [setRange, List.length_append, List.length_take,
    List.length_drop]
  omega

theorem bufContents_bufNew (N : Nat) : bufContents (bufNew N) = [] := by
  simp [bufContents, bufNew]

theorem bufContents_length (b : Buf) (h1 : b.read ≤ b.write)
    (h2 : b.write ≤ b.data.length) :
    (bufContents b).length = b.write - b.read := by
  simp only [bufContents, List.length_take, List.length_drop]
  omega

theorem bufContents_addRead (b : Buf) (k : Nat) :
    bufContents { b with read := b.read + k } = (bufContents b).drop k := by
  simp only [bufContents, List.drop_take, List.drop_drop, Nat.sub_sub]

theorem bufContents_append (b : Buf) (t : List Nat) (hr : b.read ≤ b.write)
    (hw : b.write + t.length ≤ b.data.length) :
    bufContents
      { b with data := setRange b.data b.write t,
               write := b.write + t.length } =
      bufContents b ++ t := by
  have hwl : b.write ≤ b.data.length := by omega
  have hlen1 : (b.data.take b.write).length = b.write := by
    simp [List.length_take]; omega
  have hdrop : (setRange b.data b.write t).drop b.read
      = (b.data.take b.write).drop b.read ++
        (t ++ b.data.drop (b.write + t.length)) := by
    simp only [setRange, List.append_assoc]
    rw [List.drop_append_eq_append_drop, hlen1,
      show b.read - b.write = 0 by omega, List.drop_zero]
  have hlen2 : ((b.data.take b.write).drop b.read).length =
      b.write - b.read := by simp [hlen1]
  simp only [bufContents]
  rw [hdrop, List.take_append_eq_append_take, hlen2,
    show b.write + t.length - b.read - (b.write - b.read) = t.length by omega,
    List.take_of_length_le (by omega : ((b.data.take b.write).drop b.read).length ≤ b.write + t.length - b.read)]
  rw [List.take_left]
  rw [List.drop_take]

theorem bufContents_truncate_set (b : Buf) (pt : List Nat)
    (h0 : b.read = 0) (h : pt.length ≤ b.data.length) :
    bufContents
      (bufTruncate { b with data := setRange b.data b.read pt }
        pt.length) = pt := by
  by_cases hz : pt.length = 0
  · rw [List.length_eq_zero] at hz
    subst hz
    simp [bufTruncate, bufReset, bufContents]
  · rw [bufTruncate, if_neg hz]
    simp [bufContents, h0, setRange_zero, List.take_left]

theorem readFromAux_isSome (N : Nat) :
    ∀ fuel b s, s.length + 2 ≤ fuel → (readFromAux N fuel b s).isSome := by
  intro fuel
  induction fuel with
  | zero => intro b s h; omega
  | succ f ih =>
    intro b s h
    rw [readFromAux]
    by_cases h1 : bufLen b = N
    · simp [h1]
    · simp only [h1, if_false]
      by_cases h2 : min (N - b.write) s.length = 0
      · simp [h2]
      · simp only [h2, if_false]
        have hrec := ih
          { b with
            data := setRange b.data b.write (s.take (min (N - b.write) s.length))
            write := b.write + min (N - b.write) s.length }
          (s.drop (min (N - b.write) s.length))
          (by simp only [List.length_drop]; omega)
        cases hm : readFromAux N f
            { b with
              data := setRange b.data b.write (s.take (min (N - b.write) s.length))
              write := b.write + min (N - b.write) s.length }
            (s.drop (min (N - b.write) s.length)) with
        | none => rw [hm] at hrec; simp at hrec
        | some v => simp [hm]

theorem readFromAux_slice (N : Nat) (hN : 0 < N) (dt s : List Nat) :
    readFromAux N (s.length + 2) ⟨dt, 0, 0⟩ s =
      some (min N s.length,
        ⟨s.take (min N s.length) ++ dt.drop (min N s.length), 0,
          min N s.length⟩,
        s.drop (min N s.length)) := by
  have hfull : ¬ (bufLen ⟨dt, 0, 0⟩ = N) := by simp [bufLen]; omega
  rw [show s.length + 2 = (s.length + 1) + 1 from rfl, readFromAux]
  simp only [hfull, if_false, Nat.sub_zero]
  by_cases h2 : min N s.length = 0
  · have hs : s = [] := by
      rcases Nat.min_eq_zero_iff.mp h2 with h | h
      · omega
      · exact List.length_eq_zero.mp h
    subst hs
    simp
  · simp only [h2, if_false]
    have hm1 : 1 ≤ min N s.length := Nat.pos_of_ne_zero h2
    have hmles : min N s.length ≤ s.length := min_le_right _ _
    have hmleN : min N s.length ≤ N := min_le_left _ _
    have hdata : setRange dt 0 (s.take (min N s.length)) =
        s.take (min N s.length) ++ dt.drop (min N s.length) := by
      rw [setRange_zero, List.length_take, min_eq_left hmles]
    rw [hdata, readFromAux]
    by_cases hfull2 : min N s.length = N
    · have hb : bufLen ⟨s.take (min N s.length) ++ dt.drop (min N s.length),
          0, 0 + min N s.length⟩ = N := by simp [bufLen]; omega
      simp only [hb, if_true]
      simp
    · have hms : min N s.length = s.length := by
        rcases le_total N s.length with h | h
        · exact absurd (min_eq_left h) hfull2
        · exact min_eq_right h
      have hb : ¬ (bufLen ⟨s.take (min N s.length) ++
          dt.drop (min N s.length), 0, 0 + min N s.length⟩ = N) := by
        simp [bufLen]; omega
      simp only [hb, if_false]
      have hz : min (N - (0 + min N s.length))
          (s.drop (min N s.length)).length = 0 := by
        simp [List.length_drop]; omega
      simp only [hz, if_true]
      simp

/-! ## Claims: C8, C9, C10 and concrete counterexamples -/

/-- C9: zero-length read is a no-op. -/
theorem C9_zero_length_read (A : AeadAlg) (C : Nat) (r : RState) :
    doRead A C r 0 = some (r, .ok []) := by
  simp [doRead, bufRead, Nat.min_zero]

/-- C10: the `assert!(self.buf.is_empty())` in `Reader::do_read` never
fires — under the buffer cursor invariant, whenever the staging read
returns 0 bytes with a non-empty destination and EOF unset, the staging
buffer is indeed empty, so `do_read` never panics (never returns `none`
in this embedding). -/
theorem C10_assert_never_fails (A : AeadAlg) (C : Nat) (r : RState) (d : Nat)
    (hrw : r.buf.read ≤ r.buf.write) (hwd : r.buf.write ≤ r.buf.data.length) :
    doRead A C r d ≠ none := by
  rw [doRead]
  split
  · simp
  next h1 =>
    split
    · simp
    next h2 =>
      split
      next h3 =>
        exfalso
        simp only [not_not] at h2
        have hlen : (bufContents r.buf).length = r.buf.write - r.buf.read :=
          bufContents_length r.buf hrw hwd
        have htk : ((bufContents r.buf).take
            (min (bufContents r.buf).length d)).length =
            min (bufContents r.buf).length d := by
          simp [List.length_take]
        have hd0 : d ≠ 0 := by
          intro hd
          exact h1 ⟨h2, Or.inl hd⟩
        simp only [bufRead] at h2
        rw [htk] at h2
        have : bufLen r.buf = 0 := by
          simp only [bufLen]
          omega
        exact h3 this
      next h3 =>
        have hs := readFromAux_isSome (C + A.tagSize)
          (r.src.length + 2) (bufReset (bufRead r.buf d).2) r.src
          (by omega)
        cases hq : readFromAux (C + A.tagSize) (r.src.length + 2)
            (bufReset (bufRead r.buf d).2) r.src with
        | none => rw [hq] at hs; simp at hs
        | some v =>
          rcases v with ⟨n, b3, s'⟩
          dsimp only
          split
          · simp
          · split
            · simp
            · split
              · split
                · simp
                · simp
              · simp

/-- C8 (amended): `new` establishes `read ≤ write ≤ N`, and `reset`,
`read`, `write`, `write_to` and `read_from` preserve it; `truncate n`
preserves it exactly when `n ≤ N - read` (the counterexample
`C8_counterexample` shows it is violated for larger `n`). -/
theorem C8_buf_invariant (N : Nat) :
    BufWf N (bufNew N) ∧
    (∀ b, BufWf N b → BufWf N (bufReset b)) ∧
    (∀ b d, BufWf N b → BufWf N (bufRead b d).2) ∧
    (∀ b s, BufWf N b → BufWf N (bufWrite N b s).2) ∧
    (∀ b, BufWf N b → BufWf N (bufWriteToVec b).2) ∧
    (∀ b n, BufWf N b → n ≤ N - b.read → BufWf N (bufTruncate b n)) ∧
    (∀ fuel b s n b' s', BufWf N b →
      readFromAux N fuel b s = some (n, b', s') → BufWf N b') := by
  refine ⟨⟨le_refl 0, Nat.zero_le N⟩, ?_, ?_, ?_, ?_, ?_, ?_⟩
  · intro b h
    exact ⟨le_refl 0, Nat.zero_le N⟩
  · intro b d h
    obtain ⟨h1, h2⟩ := h
    constructor
    · have : min (bufContents b).length d ≤ b.write - b.read := by
        have : (bufContents b).length ≤ b.write - b.read := by
          simp [bufContents, List.length_take]
        omega
      simp only [bufRead]
      omega
    · simp only [bufRead]
      exact h2
  · intro b s h
    obtain ⟨h1, h2⟩ := h
    constructor
    · simp only [bufWrite]
      omega
    · simp only [bufWrite]
      omega
  · intro b h
    obtain ⟨h1, h2⟩ := h
    simp only [bufWriteToVec]
    split
    · exact ⟨le_refl 0, Nat.zero_le N⟩
    · exact ⟨le_refl b.write, h2⟩
  · intro b n h hn
    obtain ⟨h1, h2⟩ := h
    simp only [bufTruncate]
    split
    · exact ⟨le_refl 0, Nat.zero_le N⟩
    · constructor
      · simp
      · simp
        omega
  · intro fuel
    induction fuel with
    | zero => intro b s n b' s' h hq; simp [readFromAux] at hq
    | succ f ih =>
      intro b s n b' s' h hq
      rw [readFromAux] at hq
      split at hq
      · cases hq
        exact h
      · dsimp only at hq
        split at hq
        · cases hq
          exact h
        next hm =>
          cases hrec : readFromAux N f
              { b with
                data := setRange b.data b.write
                  (s.take (min (N - b.write) s.length))
                write := b.write + min (N - b.write) s.length }
              (s.drop (min (N - b.write) s.length)) with
          | none => rw [hrec] at hq; cases hq
          | some v =>
            rw [hrec] at hq
            rcases v with ⟨n0, b0, s0⟩
            cases hq
            have hwf2 : BufWf N
                { b with
                  data := setRange b.data b.write
                    (s.take (min (N - b.write) s.length))
                  write := b.write + min (N - b.write) s.length } := by
              obtain ⟨h1, h2⟩ := h
              have := min_le_left (N - b.write) s.length
              exact ⟨by simp only []; omega, by simp only []; omega⟩
            exact ih _ _ _ _ _ hwf2 hrec

theorem C8_counterexample :
    ¬ BufWf 1 (bufTruncate (bufNew 1) 2) := by decide

theorem C8_witness :
    BufWf 4 (bufRead (bufNew 4) 2).2 ∧ BufWf 4 (bufTruncate (bufNew 4) 3) :=
  ⟨(C8_buf_invariant 4).2.2.1 (bufNew 4) 2 (by decide),
    (C8_buf_invariant 4).2.2.2.2.2.1 (bufNew 4) 3 (by decide) (by decide)⟩

theorem C10_witness :
    doRead mockAead 1 ⟨[5, 99], 0, 0, bufNew 2, false, [], [], .Two⟩ 2 ≠
      none :=
  C10_assert_never_fails mockAead 1
    ⟨[5, 99], 0, 0, bufNew 2, false, [], [], .Two⟩ 2 (by decide) (by decide)

theorem C2_counterexample :
    (writerOut mockAead 1 .One [] (List.replicate 32 0) [] []).map
        List.length = some 37 ∧
      WriterSize mockAead 1 0 .One = 36 := by decide

theorem C3_counterexample :
    doRead mockAead 1 ⟨[5, 99], 0, 0, bufNew 2, false, [], [], .Two⟩ 2 =
      some (⟨[], 0, 0, ⟨[5, 99], 0, 2⟩, false, [], [], .Two⟩,
        .error .Authentication) ∧
    doRead mockAead 1 ⟨[], 0, 0, ⟨[5, 99], 0, 2⟩, false, [], [], .Two⟩ 2 =
      some (⟨[], 0, 0, ⟨[5, 99], 2, 2⟩, false, [], [], .Two⟩,
        .ok [5, 99]) := by decide

theorem C6_counterexample :
    (doFlush mockAead
        (doFlush mockAead (wInit 1 .Two [] (List.replicate 32 0) [])).1).1.nonces =
        [⟨[], 0, 1⟩, ⟨[], 0, 1⟩] ∧
      ¬ (doFlush mockAead
        (doFlush mockAead (wInit 1 .Two [] (List.replicate 32 0) [])).1).1.nonces.Nodup := by
  decide

/-! ## Reader single-chunk lemmas; claims C3, C4, C7 -/

theorem bufReset_bufRead (r : RState) (d : Nat) :
    bufReset (bufRead r.buf d).2 = ⟨r.buf.data, 0, 0⟩ := rfl

theorem doRead_refill_eq (A : AeadAlg) (C : Nat) (r : RState) (d : Nat)
    (hC : 0 < C) (hempty : bufLen r.buf = 0) (heof : r.eof = false)
    (hd : 0 < d) :
    doRead A C r d = some (doReadChunk A C r d) := by
  have hcont : bufContents r.buf = [] := by
    have h0 : r.buf.write - r.buf.read = 0 := hempty
    simp [bufContents, h0]
  have htaken : (bufRead r.buf d).1 = [] := by
    simp [bufRead, hcont]
  rw [doRead]
  simp only [htaken, List.length_nil]
  rw [if_neg (by simp [heof]; omega), if_neg (by simp),
    if_neg (by simp [hempty])]
  rw [bufReset_bufRead,
    readFromAux_slice (C + A.tagSize) (by omega) r.buf.data r.src]
  have hb3 : bufContents
      ⟨r.src.take (min (C + A.tagSize) r.src.length) ++
        r.buf.data.drop (min (C + A.tagSize) r.src.length), 0,
        min (C + A.tagSize) r.src.length⟩ =
      r.src.take (min (C + A.tagSize) r.src.length) := by
    simp [bufContents, List.take_append_eq_append_take, List.length_take]
  rw [doReadChunk]
  dsimp only
  rw [hb3]
  split
  · rfl
  · split
    · rfl
    · split
      · split
        · rfl
        · rfl
      · rfl

theorem readFinish_ok (A : AeadAlg) (r : RState) (s' : List Nat) (b3 : Buf)
    (n : Nat) (eof1 : Bool) (eofB1 : Nat) (pt : List Nat) (d : Nat)
    (hb3 : b3.read = 0) (hlen : pt.length = n - A.tagSize)
    (hdl : pt.length ≤ b3.data.length)
    (hok : eof1 = true ∨ r.ctr ≠ u32Max) :
    (readFinish A r s' b3 n eof1 eofB1 pt d).2 =
      .ok (pt.take (min pt.length d)) ∧
    (readFinish A r s' b3 n eof1 eofB1 pt d).1.src = s' ∧
    (readFinish A r s' b3 n eof1 eofB1 pt d).1.eof = eof1 ∧
    (readFinish A r s' b3 n eof1 eofB1 pt d).1.eofB = eofB1 ∧
    (readFinish A r s' b3 n eof1 eofB1 pt d).1.ctr =
      (if eof1 then r.ctr else r.ctr + 1) ∧
    (readFinish A r s' b3 n eof1 eofB1 pt d).1.pfx = r.pfx ∧
    (readFinish A r s' b3 n eof1 eofB1 pt d).1.ad = r.ad ∧
    (readFinish A r s' b3 n eof1 eofB1 pt d).1.ver = r.ver ∧
    bufContents (readFinish A r s' b3 n eof1 eofB1 pt d).1.buf =
      pt.drop (min pt.length d) ∧
    (readFinish A r s' b3 n eof1 eofB1 pt d).1.buf.read ≤
      (readFinish A r s' b3 n eof1 eofB1 pt d).1.buf.write ∧
    (readFinish A r s' b3 n eof1 eofB1 pt d).1.buf.write ≤
      (readFinish A r s' b3 n eof1 eofB1 pt d).1.buf.data.length ∧
    (readFinish A r s' b3 n eof1 eofB1 pt d).1.buf.data.length =
      b3.data.length := by
  have hcond : ¬ (eof1 = false ∧ r.ctr = u32Max) := by
    rcases hok with h | h
    · simp [h]
    · simp [h]
  have hdlen : (setRange b3.data b3.read pt).length = b3.data.length := by
    rw [hb3]
    exact setRange_length _ _ _ (by omega)
  have hb5 : bufContents
      (bufTruncate { b3 with data := setRange b3.data b3.read pt }
        (n - A.tagSize)) = pt := by
    rw [← hlen]
    exact bufContents_truncate_set b3 pt hb3 hdl
  have hlenc : ∀ b : Buf, (bufContents b).length ≤ b.write - b.read := by
    intro b
    simp [bufContents, List.length_take]
  rw [readFinish]
  simp only [hcond, if_false]
  set b5 := bufTruncate
    { data := setRange b3.data b3.read pt, read := b3.read,
      write := b3.write } (n - A.tagSize) with hb5def
  have hb5r : b5.read = 0 := by
    rw [hb5def, bufTruncate]
    split
    · rfl
    · exact hb3
  have hb5w : b5.write ≤ b3.data.length := by
    rw [hb5def, bufTruncate]
    split
    · simp [bufReset]
    · simp only [hb3]
      omega
  have hb5d : b5.data.length = b3.data.length := by
    rw [hb5def, bufTruncate]
    split
    · simpa [bufReset] using hdlen
    · simpa using hdlen
  have hb5len : (bufContents b5).length = pt.length := by rw [hb5]
  refine ⟨?_, trivial, trivial, trivial, trivial, trivial, trivial, trivial,
    ?_, ?_, ?_, ?_⟩
  · simp only [bufRead]
    rw [hb5]
  · simp only [bufRead]
    rw [bufContents_addRead, hb5]
  · simp only [bufRead]
    have h1 := hlenc b5
    have h2 := min_le_left (bufContents b5).length d
    omega
  · simp only [bufRead]
    omega
  · simp only [bufRead]
    exact hb5d


theorem readFinish_overflow (A : AeadAlg) (r : RState) (s' : List Nat)
    (b3 : Buf) (n : Nat) (eofB1 : Nat) (pt : List Nat) (d : Nat)
    (h2 : r.ctr = u32Max) :
    (readFinish A r s' b3 n false eofB1 pt d).2 =
      .error .CounterOverflow := by
  rw [readFinish]
  simp [h2]

theorem doReadChunk_full (A : AeadAlg) (C : Nat) (r : RState) (d : Nat)
    (hfull : C + A.tagSize ≤ r.src.length) :
    doReadChunk A C r d =
      (match A.dec ⟨r.pfx, r.ctr, r.eofB⟩ r.ad
          ((r.src.take (C + A.tagSize)).take C)
          ((r.src.take (C + A.tagSize)).drop C) with
       | some pt => readFinish A r (r.src.drop (C + A.tagSize))
           ⟨r.src.take (C + A.tagSize) ++
             r.buf.data.drop (C + A.tagSize), 0, C + A.tagSize⟩
           (C + A.tagSize) false r.eofB pt d
       | none =>
         if r.ver = .One then
           match A.dec ⟨r.pfx, r.ctr, 1⟩ r.ad
               ((r.src.take (C + A.tagSize)).take C)
               ((r.src.take (C + A.tagSize)).drop C) with
           | some pt => readFinish A r (r.src.drop (C + A.tagSize))
               ⟨r.src.take (C + A.tagSize) ++
                 r.buf.data.drop (C + A.tagSize), 0, C + A.tagSize⟩
               (C + A.tagSize) true 1 pt d
           | none =>
             ({ r with
                buf := ⟨r.src.take (C + A.tagSize) ++
                  r.buf.data.drop (C + A.tagSize), 0, C + A.tagSize⟩
                src := r.src.drop (C + A.tagSize)
                eof := true
                eofB := 1 }, .error .Authentication)
         else
           ({ r with
              buf := ⟨r.src.take (C + A.tagSize) ++
                r.buf.data.drop (C + A.tagSize), 0, C + A.tagSize⟩
              src := r.src.drop (C + A.tagSize)
              eof := false
              eofB := r.eofB }, .error .Authentication)) := by
  rw [doReadChunk]
  dsimp only
  rw [min_eq_left hfull, if_neg (by omega)]
  have he : decide (C + A.tagSize < C + A.tagSize) = false := by simp
  rw [he, show C + A.tagSize - A.tagSize = C from by omega]
  simp only [Bool.false_eq_true, if_false, and_true, decide_False]

theorem doReadChunk_short (A : AeadAlg) (C : Nat) (r : RState) (d : Nat)
    (hT : A.tagSize ≤ r.src.length) (hshort : r.src.length < C + A.tagSize) :
    doReadChunk A C r d =
      (match A.dec ⟨r.pfx, r.ctr, 1⟩ r.ad
          (r.src.take (r.src.length - A.tagSize))
          (r.src.drop (r.src.length - A.tagSize)) with
       | some pt => readFinish A r []
           ⟨r.src ++ r.buf.data.drop r.src.length, 0, r.src.length⟩
           r.src.length true 1 pt d
       | none =>
         ({ r with
            buf := ⟨r.src ++ r.buf.data.drop r.src.length, 0, r.src.length⟩
            src := []
            eof := true
            eofB := 1 }, .error .Authentication)) := by
  rw [doReadChunk]
  dsimp only
  rw [min_eq_right (le_of_lt hshort), if_neg (by omega)]
  have he : decide (r.src.length < C + A.tagSize) = true := by
    simp [hshort]
  rw [he]
  simp only [if_true, List.take_length, List.drop_length,
    List.take_take, min_self]
  simp only [Bool.true_eq_false, and_false, if_false]


/-- C4: version-1 retry, exactly once and only for version 1. -/
theorem C4_version1_retry (A : AeadAlg) (hA : AeadOk A) (C : Nat)
    (r : RState) (d : Nat) (hC : 0 < C) (hempty : bufLen r.buf = 0)
    (heof : r.eof = false) (hd : 0 < d)
    (hfull : C + A.tagSize ≤ r.src.length) :
    (∀ pt, r.ver = .One →
      A.dec ⟨r.pfx, r.ctr, r.eofB⟩ r.ad
        ((r.src.take (C + A.tagSize)).take C)
        ((r.src.take (C + A.tagSize)).drop C) = none →
      A.dec ⟨r.pfx, r.ctr, 1⟩ r.ad
        ((r.src.take (C + A.tagSize)).take C)
        ((r.src.take (C + A.tagSize)).drop C) = some pt →
      ∃ r', doRead A C r d = some (r', .ok (pt.take (min pt.length d))) ∧
        r'.eof = true ∧ r'.ctr = r.ctr) ∧
    (r.ver = .One →
      A.dec ⟨r.pfx, r.ctr, r.eofB⟩ r.ad
        ((r.src.take (C + A.tagSize)).take C)
        ((r.src.take (C + A.tagSize)).drop C) = none →
      A.dec ⟨r.pfx, r.ctr, 1⟩ r.ad
        ((r.src.take (C + A.tagSize)).take C)
        ((r.src.take (C + A.tagSize)).drop C) = none →
      ∃ r', doRead A C r d = some (r', .error .Authentication) ∧
        r'.eof = true) ∧
    (∀ pt, r.ver = .Two →
      A.dec ⟨r.pfx, r.ctr, r.eofB⟩ r.ad
        ((r.src.take (C + A.tagSize)).take C)
        ((r.src.take (C + A.tagSize)).drop C) = none →
      A.dec ⟨r.pfx, r.ctr, 1⟩ r.ad
        ((r.src.take (C + A.tagSize)).take C)
        ((r.src.take (C + A.tagSize)).drop C) = some pt →
      ∃ r', doRead A C r d = some (r', .error .Authentication) ∧
        r'.eof = false) := by
  have heq := doRead_refill_eq A C r d hC hempty heof hd
  rw [doReadChunk_full A C r d hfull] at heq
  refine ⟨?_, ?_, ?_⟩
  · intro pt hver hdec1 hdec2
    rw [hdec1, hver] at heq
    simp only [if_pos rfl] at heq
    rw [hdec2] at heq
    have hptlen : pt.length = C := by
      obtain ⟨henc1, _, hiff, _⟩ := hA
      have hEnc := (hiff _ _ _ _ _).mp hdec2
      have h2 := henc1 ⟨r.pfx, r.ctr, 1⟩ r.ad pt
      rw [hEnc] at h2
      dsimp only at h2
      rw [List.length_take, List.length_take] at h2
      omega
    have hrf := readFinish_ok A r (r.src.drop (C + A.tagSize))
      ⟨r.src.take (C + A.tagSize) ++ r.buf.data.drop (C + A.tagSize), 0,
        C + A.tagSize⟩ (C + A.tagSize) true 1 pt d rfl
      (by omega) (by simp [List.length_take]; omega) (Or.inl rfl)
    obtain ⟨h2ok, _, heofr, _, hctr, _⟩ := hrf
    refine ⟨_, ?_, heofr, ?_⟩
    · rw [heq, ← h2ok]
      rfl
    · rw [hctr]
      simp
  · intro hver hdec1 hdec2
    rw [hdec1, hver] at heq
    simp only [if_pos rfl] at heq
    rw [hdec2] at heq
    exact ⟨_, heq, rfl⟩
  · intro pt hver hdec1 hdec2
    rw [hdec1, hver] at heq
    simp only [reduceCtorEq, if_false] at heq
    exact ⟨_, heq, rfl⟩


theorem encL_inj : ∀ l l' : List Nat, encL l = encL l' → l = l' := by
  intro l
  induction l with
  | nil =>
    intro l' h
    cases l' with
    | nil => rfl
    | cons b t => simp [encL] at h
  | cons a t ih =>
    intro l' h
    cases l' with
    | nil => simp [encL] at h
    | cons b t' =>
      simp only [encL, List.foldr_cons, Nat.add_right_cancel_iff] at h
      have := Nat.pair_eq_pair.mp h
      have ht : t = t' := ih t' this.2
      rw [this.1, ht]

theorem mkTag_inj (nn nn' : NonceV) (ad p p' : List Nat)
    (h : mkTag nn ad p = mkTag nn' ad p') : nn = nn' ∧ p = p' := by
  unfold mkTag at h
  have h1 := Nat.pair_eq_pair.mp h
  have h2 := Nat.pair_eq_pair.mp h1.2
  have h3 := Nat.pair_eq_pair.mp h2.2
  have h4 := Nat.pair_eq_pair.mp h3.2
  refine ⟨?_, encL_inj _ _ h4.2⟩
  cases nn
  cases nn'
  simp only [NonceV.mk.injEq]
  exact ⟨encL_inj _ _ h1.1, h2.1, h3.1⟩

theorem mockAead_ok : AeadOk mockAead := by
  refine ⟨fun nn ad p => rfl, fun nn ad p => rfl, ?_, ?_⟩
  · intro nn ad ct tg p
    constructor
    · intro h
      simp only [mockAead] at h
      by_cases htg : tg = [mkTag nn ad ct]
      · rw [if_pos htg] at h
        have hcp : ct = p := by
          injection h
        subst hcp
        rw [htg]
        rfl
      · rw [if_neg htg] at h
        cases h
    · intro h
      simp only [mockAead, Prod.mk.injEq] at h ⊢
      obtain ⟨h1, h2⟩ := h
      subst h1
      rw [if_pos h2.symm]
  · intro nn nn' ad p p' h
    simp only [mockAead, Prod.mk.injEq, List.cons.injEq, and_true] at h
    obtain ⟨h1, h2⟩ := h
    subst h1
    have := mkTag_inj nn nn' ad p p h2
    exact ⟨this.1, rfl⟩

theorem C4_witness :
    ∃ r', doRead mockAead 1
        ⟨[7, mkTag ⟨[], 0, 1⟩ [] [7]], 0, 0, bufNew 2, false, [], [],
          .One⟩ 5 = some (r', .ok [7]) ∧ r'.eof = true ∧ r'.ctr = 0 :=
  (C4_version1_retry mockAead mockAead_ok 1
    ⟨[7, mkTag ⟨[], 0, 1⟩ [] [7]], 0, 0, bufNew 2, false, [], [], .One⟩ 5
    (by decide) (by decide) rfl (by decide) (by decide)).1 [7] rfl
    (by decide) (by decide)


/-- C7: counter increments and overflow behaviour. -/
theorem C7_counter_no_wrap (A : AeadAlg) (hA : AeadOk A) (C : Nat) :
    (∀ w : WState, (flushInternal A w true).1.ctr = w.ctr ∧
      ∃ m, (flushInternal A w true).2 = .ok m) ∧
    (∀ w : WState, w.ctr ≠ u32Max →
      (flushInternal A w false).1.ctr = w.ctr + 1 ∧
      ∃ m, (flushInternal A w false).2 = .ok m) ∧
    (∀ w : WState, w.ctr = u32Max →
      (flushInternal A w false).2 = .error .CounterOverflow ∧
      (flushInternal A w false).1.ctr = w.ctr) ∧
    (∀ r : RState, ∀ d pt, 0 < C → bufLen r.buf = 0 → r.eof = false →
      0 < d → C + A.tagSize ≤ r.src.length →
      A.dec ⟨r.pfx, r.ctr, r.eofB⟩ r.ad
        ((r.src.take (C + A.tagSize)).take C)
        ((r.src.take (C + A.tagSize)).drop C) = some pt →
      (r.ctr ≠ u32Max → ∃ r' bs, doRead A C r d = some (r', .ok bs) ∧
        r'.ctr = r.ctr + 1 ∧ r'.eof = false) ∧
      (r.ctr = u32Max → ∃ r', doRead A C r d =
        some (r', .error .CounterOverflow))) ∧
    (∀ r : RState, ∀ d pt, 0 < C → bufLen r.buf = 0 → r.eof = false →
      0 < d → A.tagSize ≤ r.src.length → r.src.length < C + A.tagSize →
      A.dec ⟨r.pfx, r.ctr, 1⟩ r.ad
        (r.src.take (r.src.length - A.tagSize))
        (r.src.drop (r.src.length - A.tagSize)) = some pt →
      ∃ r' bs, doRead A C r d = some (r', .ok bs) ∧ r'.ctr = r.ctr ∧
        r'.eof = true) := by
  refine ⟨?_, ?_, ?_, ?_, ?_⟩
  · intro w
    exact ⟨rfl, ⟨_, rfl⟩⟩
  · intro w h
    rw [flushInternal]
    simp only [Bool.false_eq_true, if_false, if_neg h]
    exact ⟨trivial, ⟨_, rfl⟩⟩
  · intro w h
    rw [flushInternal]
    simp only [Bool.false_eq_true, if_false, if_pos h]
    exact ⟨trivial, trivial⟩
  · intro r d pt hC hempty heof hd hfull hdec
    have hptlen : pt.length = C := by
      obtain ⟨henc1, _, hiff, _⟩ := hA
      have hEnc := (hiff _ _ _ _ _).mp hdec
      have h2 := henc1 ⟨r.pfx, r.ctr, r.eofB⟩ r.ad pt
      rw [hEnc] at h2
      dsimp only at h2
      rw [List.length_take, List.length_take] at h2
      omega
    have heq := doRead_refill_eq A C r d hC hempty heof hd
    rw [doReadChunk_full A C r d hfull, hdec] at heq
    constructor
    · intro hctr
      have hrf := readFinish_ok A r (r.src.drop (C + A.tagSize))
        ⟨r.src.take (C + A.tagSize) ++ r.buf.data.drop (C + A.tagSize), 0,
          C + A.tagSize⟩ (C + A.tagSize) false r.eofB pt d rfl
        (by omega) (by simp [List.length_take]; omega) (Or.inr hctr)
      obtain ⟨h2ok, _, heofr, _, hctr', _⟩ := hrf
      refine ⟨_, pt.take (min pt.length d), ?_, ?_, heofr⟩
      · rw [heq, ← h2ok]
      · rw [hctr']
        simp
    · intro hctr
      have hov := readFinish_overflow A r (r.src.drop (C + A.tagSize))
        ⟨r.src.take (C + A.tagSize) ++ r.buf.data.drop (C + A.tagSize), 0,
          C + A.tagSize⟩ (C + A.tagSize) r.eofB pt d hctr
      refine ⟨(readFinish A r (r.src.drop (C + A.tagSize))
        ⟨r.src.take (C + A.tagSize) ++ r.buf.data.drop (C + A.tagSize), 0,
          C + A.tagSize⟩ (C + A.tagSize) false r.eofB pt d).1, ?_⟩
      rw [heq, ← hov]
  · intro r d pt hC hempty heof hd hT hshort hdec
    have hptlen : pt.length = r.src.length - A.tagSize := by
      obtain ⟨henc1, _, hiff, _⟩ := hA
      have hEnc := (hiff _ _ _ _ _).mp hdec
      have h2 := henc1 ⟨r.pfx, r.ctr, 1⟩ r.ad pt
      rw [hEnc] at h2
      dsimp only at h2
      rw [List.length_take] at h2
      omega
    have heq := doRead_refill_eq A C r d hC hempty heof hd
    rw [doReadChunk_short A C r d hT hshort, hdec] at heq
    have hrf := readFinish_ok A r []
      ⟨r.src ++ r.buf.data.drop r.src.length, 0, r.src.length⟩
      r.src.length true 1 pt d rfl hptlen
      (by simp; omega) (Or.inl rfl)
    obtain ⟨h2ok, _, heofr, _, hctr', _⟩ := hrf
    refine ⟨_, pt.take (min pt.length d), ?_, ?_, heofr⟩
    · rw [heq, ← h2ok]
    · rw [hctr']
      simp


theorem C7_witness :
    (flushInternal mockAead ⟨[], 5, 0, bufNew 1, [], [], .Two, []⟩
        false).1.ctr = 6 ∧
    (flushInternal mockAead ⟨[], u32Max, 0, bufNew 1, [], [], .Two, []⟩
        false).2 = .error .CounterOverflow :=
  ⟨((C7_counter_no_wrap mockAead mockAead_ok 1).2.1
      ⟨[], 5, 0, bufNew 1, [], [], .Two, []⟩ (by decide)).1,
    ((C7_counter_no_wrap mockAead mockAead_ok 1).2.2.1
      ⟨[], u32Max, 0, bufNew 1, [], [], .Two, []⟩ rfl).1⟩

/-- C3 (amended): reject-then-return within one call. -/
theorem C3_no_partial_emission (A : AeadAlg) (hA : AeadOk A) (C : Nat)
    (r : RState) (d : Nat) (hC : 0 < C) (hempty : bufLen r.buf = 0)
    (heof : r.eof = false) (hd : 0 < d) (r' : RState) (bs : List Nat)
    (hread : doRead A C r d = some (r', .ok bs)) :
    ∃ eB pt, A.dec ⟨r.pfx, r.ctr, eB⟩ r.ad
        ((r.src.take (min (C + A.tagSize) r.src.length)).take
          (min (C + A.tagSize) r.src.length - A.tagSize))
        ((r.src.take (min (C + A.tagSize) r.src.length)).drop
          (min (C + A.tagSize) r.src.length - A.tagSize)) = some pt ∧
      bs = pt.take (min pt.length d) := by
  have hn : min (C + A.tagSize) r.src.length ≤ r.src.length :=
    min_le_right _ _
  have hptl : ∀ eB pt, A.dec ⟨r.pfx, r.ctr, eB⟩ r.ad
      ((r.src.take (min (C + A.tagSize) r.src.length)).take
        (min (C + A.tagSize) r.src.length - A.tagSize))
      ((r.src.take (min (C + A.tagSize) r.src.length)).drop
        (min (C + A.tagSize) r.src.length - A.tagSize)) = some pt →
      pt.length = min (C + A.tagSize) r.src.length - A.tagSize := by
    intro eB pt hdec
    obtain ⟨henc1, _, hiff, _⟩ := hA
    have hEnc := (hiff _ _ _ _ _).mp hdec
    have h2 := henc1 ⟨r.pfx, r.ctr, eB⟩ r.ad pt
    rw [hEnc] at h2
    dsimp only at h2
    rw [List.length_take, List.length_take] at h2
    omega
  rw [doRead_refill_eq A C r d hC hempty heof hd, doReadChunk] at hread
  dsimp only at hread
  injection hread with hread
  split at hread
  · exfalso
    simp at hread
  next hnT =>
    split at hread
    next pt hdec =>
      refine ⟨_, pt, hdec, ?_⟩
      have hplen := hptl _ pt hdec
      have hdl : pt.length ≤
          (r.src.take (min (C + A.tagSize) r.src.length) ++
            r.buf.data.drop (min (C + A.tagSize) r.src.length)).length := by
        rw [List.length_append, List.length_take, min_eq_left hn]
        omega
      by_cases hok : decide
          (min (C + A.tagSize) r.src.length < C + A.tagSize) = true ∨
          r.ctr ≠ u32Max
      · have hrf := readFinish_ok A r
          (r.src.drop (min (C + A.tagSize) r.src.length))
          ⟨r.src.take (min (C + A.tagSize) r.src.length) ++
            r.buf.data.drop (min (C + A.tagSize) r.src.length), 0,
            min (C + A.tagSize) r.src.length⟩
          (min (C + A.tagSize) r.src.length)
          (decide (min (C + A.tagSize) r.src.length < C + A.tagSize))
          (if decide (min (C + A.tagSize) r.src.length < C + A.tagSize) =
              true then 1 else r.eofB) pt d rfl hplen hdl hok
        rw [hread] at hrf
        have h1 := hrf.1
        injection h1 with h
      · push_neg at hok
        obtain ⟨hef, hctr⟩ := hok
        have hef' : decide
            (min (C + A.tagSize) r.src.length < C + A.tagSize) = false := by
          simpa using hef
        rw [hef'] at hread
        rw [readFinish] at hread
        rw [if_pos ⟨rfl, hctr⟩] at hread
        exfalso
        simp at hread
    next hdec1 =>
      split at hread
      next hv1 =>
        split at hread
        next pt hdec2 =>
          refine ⟨1, pt, hdec2, ?_⟩
          have hplen := hptl 1 pt hdec2
          have hdl : pt.length ≤
              (r.src.take (min (C + A.tagSize) r.src.length) ++
                r.buf.data.drop (min (C + A.tagSize) r.src.length)).length := by
            rw [List.length_append, List.length_take, min_eq_left hn]
            omega
          have hrf := readFinish_ok A r
            (r.src.drop (min (C + A.tagSize) r.src.length))
            ⟨r.src.take (min (C + A.tagSize) r.src.length) ++
              r.buf.data.drop (min (C + A.tagSize) r.src.length), 0,
              min (C + A.tagSize) r.src.length⟩
            (min (C + A.tagSize) r.src.length) true 1 pt d rfl
            hplen hdl (Or.inl rfl)
          rw [hread] at hrf
          have h1 := hrf.1
          injection h1 with h
        next hdec2 =>
          exfalso
          simp at hread
      next hv2 =>
        exfalso
        simp at hread


theorem C3_witness :
    ∃ eB pt, mockAead.dec ⟨[], 0, eB⟩ []
        (([7, mkTag ⟨[], 0, 0⟩ [] [7]].take
            (min (1 + mockAead.tagSize)
              ([7, mkTag ⟨[], 0, 0⟩ [] [7]] : List Nat).length)).take
          (min (1 + mockAead.tagSize)
              ([7, mkTag ⟨[], 0, 0⟩ [] [7]] : List Nat).length -
            mockAead.tagSize))
        (([7, mkTag ⟨[], 0, 0⟩ [] [7]].take
            (min (1 + mockAead.tagSize)
              ([7, mkTag ⟨[], 0, 0⟩ [] [7]] : List Nat).length)).drop
          (min (1 + mockAead.tagSize)
              ([7, mkTag ⟨[], 0, 0⟩ [] [7]] : List Nat).length -
            mockAead.tagSize)) = some pt ∧
      ([7] : List Nat) = pt.take (min pt.length 5) :=
  C3_no_partial_emission mockAead mockAead_ok 1
    ⟨[7, mkTag ⟨[], 0, 0⟩ [] [7]], 0, 0, bufNew 2, false, [], [], .Two⟩ 5
    (by decide) (by decide) rfl (by decide)
    ⟨[], 1, 0, ⟨[7, mkTag ⟨[], 0, 0⟩ [] [7]], 1, 1⟩, false, [], [], .Two⟩
    [7] (by decide)

theorem flushInternal_char (A : AeadAlg) (hA : AeadOk A) (C : Nat)
    (w : WState) (hcl : WClean C w) (eof : Bool)
    (hctr : eof = true ∨ w.ctr ≠ u32Max) :
    ∃ w' m, flushInternal A w eof = (w', .ok m) ∧
      w'.out = w.out ++
        encChunk A ⟨w.pfx, w.ctr, if eof then 1 else 0⟩ w.ad
          (bufContents w.buf) ∧
      w'.ctr = (if eof then w.ctr else w.ctr + 1) ∧
      w'.eofB = (if eof then 1 else 0) ∧
      w'.nonces = w.nonces ++ [⟨w.pfx, w.ctr, if eof then 1 else 0⟩] ∧
      w'.pfx = w.pfx ∧ w'.ad = w.ad ∧ w'.ver = w.ver ∧
      w'.buf.read = 0 ∧ w'.buf.write = 0 ∧
      w'.buf.data.length = C := by
  obtain ⟨hr0, hwle, hdl, heofB, hctrle⟩ := hcl
  obtain ⟨henc1, henc2, _, _⟩ := hA
  have hptlen : (bufContents w.buf).length = w.buf.write := by
    have := bufContents_length w.buf (by omega) (by omega)
    omega
  set nn : NonceV := ⟨w.pfx, w.ctr, if eof then 1 else w.eofB⟩ with hnn
  set pt := bufContents w.buf with hpt
  set ct := (A.enc nn w.ad pt).1 with hct
  have hctlen : ct.length = w.buf.write := by
    rw [hct, henc1, hpt, hptlen]
  have hb1 : bufContents
      { w.buf with data := setRange w.buf.data w.buf.read ct } = ct := by
    simp only [bufContents, hr0, setRange_zero, List.drop_zero]
    rw [Nat.sub_zero, List.take_append_eq_append_take,
      List.take_of_length_le (by omega),
      show w.buf.write - ct.length = 0 from by omega,
      List.take_zero, List.append_nil]
  have hb1d : (setRange w.buf.data w.buf.read ct).length = C := by
    rw [hr0, setRange_length _ _ _ (by omega), hdl]
  have hsent : (bufWriteToVec
      { w.buf with data := setRange w.buf.data w.buf.read ct }).1 = ct := by
    rw [bufWriteToVec]
    split
    next hz =>
      have hz2 : w.buf.write = 0 := by
        simp only [bufLen] at hz
        omega
      rw [← List.length_eq_zero.mp (by omega : ct.length = 0)]
    next hz => exact hb1
  have hvecdata : ∀ b : Buf, (bufWriteToVec b).2.data = b.data := by
    intro b
    rw [bufWriteToVec]
    split
    · rfl
    · rfl
  rw [flushInternal]
  simp only [← hnn, ← hpt, ← hct, hsent]
  cases eof with
  | true =>
    refine ⟨_, _, rfl, ?_, rfl, rfl, rfl, rfl, rfl, rfl, rfl, rfl, ?_⟩
    · exact List.append_assoc _ _ _
    · show (bufReset _).data.length = C
      rw [bufReset]
      dsimp only
      rw [hvecdata]
      exact hb1d
  | false =>
    have hne : w.ctr ≠ u32Max := by
      rcases hctr with h | h
      · cases h
      · exact h
    rw [if_neg hne]
    refine ⟨_, _, rfl, ?_, rfl, heofB, ?_, rfl, rfl, rfl, rfl, rfl, ?_⟩
    · have hec : encChunk A ⟨w.pfx, w.ctr, if (false : Bool) = true
          then 1 else 0⟩ w.ad pt = ct ++ (A.enc nn w.ad pt).2 := by
        rw [encChunk, hct, hnn, heofB]
      rw [hec, ← List.append_assoc]
    · show _ ++ [nn] = _ ++ _
      rw [hnn, heofB]
    · show (bufReset _).data.length = C
      rw [bufReset]
      dsimp only
      rw [hvecdata]
      exact hb1d

theorem exactChunks_nil (C : Nat) : exactChunks C [] = [] := by
  rw [exactChunks]
  simp

theorem exactChunks_cons (C : Nat) (hC : 0 < C) (p X : List Nat)
    (hp : p.length = C) : exactChunks C (p ++ X) = p :: exactChunks C X := by
  rw [exactChunks]
  have hne : ¬(C = 0 ∨ p ++ X = []) := by
    push_neg
    refine ⟨by omega, ?_⟩
    intro h
    have h1 : p = [] := (List.append_eq_nil.mp h).1
    rw [h1] at hp
    simp at hp
    omega
  rw [if_neg hne]
  have ht : (p ++ X).take C = p := by
    rw [List.take_append_eq_append_take, List.take_of_length_le (by omega),
      show C - p.length = 0 from by omega, List.take_zero, List.append_nil]
  have hd : (p ++ X).drop C = X := by
    rw [List.drop_append_eq_append_drop,
      List.drop_eq_nil_of_le (by omega),
      show C - p.length = 0 from by omega, List.drop_zero, List.nil_append]
  rw [ht, hd]

theorem exactChunks_full (C : Nat) (hC : 0 < C) : ∀ f l, l.length = f * C →
    (exactChunks C l).length = f ∧ (∀ p ∈ exactChunks C l, p.length = C) ∧
      (exactChunks C l).join = l := by
  intro f
  induction f with
  | zero =>
    intro l h
    have hl : l = [] := List.length_eq_zero.mp (by omega)
    subst hl
    rw [exactChunks_nil]
    refine ⟨rfl, ?_, rfl⟩
    intro p hp
    simp at hp
  | succ f ih =>
    intro l h
    have hfl : l.length = f * C + C := by rw [h]; ring
    have hlen : C ≤ l.length := by omega
    have htl : (l.take C).length = C := by
      rw [List.length_take]
      omega
    have hsplit : l = l.take C ++ l.drop C := (List.take_append_drop C l).symm
    have hdrop : (l.drop C).length = f * C := by
      rw [List.length_drop]
      omega
    obtain ⟨h1, h2, h3⟩ := ih (l.drop C) hdrop
    rw [hsplit, exactChunks_cons C hC _ _ htl]
    refine ⟨by simp [h1], ?_, by simp [h3]⟩
    intro p hp
    rcases List.mem_cons.mp hp with h | h
    · rw [h, htl]
    · exact h2 p h

theorem takeCount_le (ver : Version) (C n : Nat) : takeCount ver C n ≤ n := by
  cases ver with
  | One => simp [takeCount]
  | Two => exact Nat.div_mul_le_self n C

theorem takeCount_div_mul (ver : Version) (C n : Nat) (hC : 0 < C) :
    takeCount ver C n / C * C = takeCount ver C n := by
  cases ver with
  | One =>
    simp only [takeCount, lastLen]
    by_cases hn : n = 0
    · simp [hn]
    · rw [if_neg hn]
      have hmd := Nat.div_add_mod (n - 1) C
      have hml : (n - 1) % C < C := Nat.mod_lt _ hC
      have hkey : n - ((n - 1) % C + 1) = C * ((n - 1) / C) := by omega
      rw [hkey, Nat.mul_comm C ((n - 1) / C), Nat.mul_div_cancel _ hC]
  | Two =>
    simp only [takeCount]
    rw [Nat.mul_div_cancel _ hC]

theorem takeCount_two_small (C n : Nat) (h : n < C) :
    takeCount .Two C n = 0 := by
  simp [takeCount, Nat.div_eq_of_lt h]

theorem takeCount_one_small (C n : Nat) (hC : 0 < C) (h : n ≤ C) :
    takeCount .One C n = 0 := by
  simp only [takeCount, lastLen]
  by_cases hn : n = 0
  · simp [hn]
  · rw [if_neg hn]
    have : (n - 1) % C = n - 1 := Nat.mod_eq_of_lt (by omega)
    omega

theorem lastLen_bounds (C n : Nat) (hC : 0 < C) (hn : 1 ≤ n) :
    1 ≤ lastLen C n ∧ lastLen C n ≤ C ∧ lastLen C n ≤ n := by
  simp only [lastLen, if_neg (by omega : ¬ n = 0)]
  have h1 : (n - 1) % C < C := Nat.mod_lt _ hC
  have h2 : (n - 1) % C ≤ n - 1 := Nat.mod_le _ _
  omega

theorem takeCount_step (ver : Version) (C x : Nat) (hC : 0 < C)
    (hx : ver = .One → 1 ≤ x) :
    takeCount ver C (C + x) = C + takeCount ver C x := by
  cases ver with
  | One =>
    have hx1 := hx rfl
    simp only [takeCount, lastLen, if_neg (by omega : ¬ C + x = 0),
      if_neg (by omega : ¬ x = 0)]
    have hcx : C + x - 1 = C + (x - 1) := by omega
    rw [hcx, Nat.add_mod_left]
    have h2 : (x - 1) % C ≤ x - 1 := Nat.mod_le _ _
    omega
  | Two =>
    simp only [takeCount]
    rw [Nat.add_comm C x, Nat.add_div_right _ hC, Nat.add_mul, Nat.one_mul,
      Nat.add_comm (x / C * C) C]

theorem takeCount_step_div (ver : Version) (C x : Nat) (hC : 0 < C)
    (hx : ver = .One → 1 ≤ x) :
    takeCount ver C (C + x) / C = 1 + takeCount ver C x / C := by
  rw [takeCount_step ver C x hC hx, Nat.add_comm C _,
    Nat.add_div_right _ hC, Nat.add_comm]

theorem nonce_range_shift (pfxv : List Nat) (g f : Nat) :
    (List.range (1 + f)).map (fun i => (⟨pfxv, g + i, 0⟩ : NonceV)) =
      ⟨pfxv, g, 0⟩ :: (List.range f).map
        (fun i => (⟨pfxv, g + 1 + i, 0⟩ : NonceV)) := by
  have h2 : ((List.range f).map Nat.succ).map
      (fun i => (⟨pfxv, g + i, 0⟩ : NonceV)) =
      (List.range f).map (fun i => (⟨pfxv, g + 1 + i, 0⟩ : NonceV)) := by
    rw [List.map_map]
    apply List.map_congr_left
    intro i hi
    show (⟨pfxv, g + (i + 1), 0⟩ : NonceV) = ⟨pfxv, g + 1 + i, 0⟩
    have hgi : g + (i + 1) = g + 1 + i := by omega
    rw [hgi]
  rw [Nat.add_comm 1 f, List.range_succ_eq_map, List.map_cons, h2]
  simp

theorem bufContents_zero (b : Buf) (h : b.write = 0) : bufContents b = [] := by
  simp [bufContents, h]

theorem doWriteAux_char (A : AeadAlg) (hA : AeadOk A) (C : Nat) (hC : 0 < C) :
    ∀ fuel s (w : WState), WClean C w → (w.ver = .Two → w.buf.write < C) →
      s.length + 1 ≤ fuel →
      ((w.ctr + takeCount w.ver C (bufContents w.buf ++ s).length / C ≤
          u32Max →
        ∃ w', doWriteAux A C fuel w s = some (w', .ok ()) ∧
          w'.out = w.out ++ encNF A w.pfx w.ad w.ctr
            (exactChunks C ((bufContents w.buf ++ s).take
              (takeCount w.ver C (bufContents w.buf ++ s).length))) ∧
          w'.ctr = w.ctr +
            takeCount w.ver C (bufContents w.buf ++ s).length / C ∧
          w'.nonces = w.nonces ++ (List.range
            (takeCount w.ver C (bufContents w.buf ++ s).length / C)).map
              (fun i => ⟨w.pfx, w.ctr + i, 0⟩) ∧
          bufContents w'.buf = (bufContents w.buf ++ s).drop
            (takeCount w.ver C (bufContents w.buf ++ s).length) ∧
          WClean C w' ∧ (w'.ver = .Two → w'.buf.write < C) ∧
          w'.pfx = w.pfx ∧ w'.ad = w.ad ∧ w'.ver = w.ver) ∧
       (¬ (w.ctr + takeCount w.ver C (bufContents w.buf ++ s).length / C ≤
          u32Max) →
        ∃ w', doWriteAux A C fuel w s =
          some (w', .error .CounterOverflow))) := by
  intro fuel
  induction fuel with
  | zero =>
    intro s w _ _ hf
    omega
  | succ fuel ih =>
    intro s w hcl hv2 hf
    have hcl' := hcl
    obtain ⟨hr0, hwle, hdl, heofB, hctrle⟩ := hcl'
    have hclen : (bufContents w.buf).length = w.buf.write := by
      have := bufContents_length w.buf (by omega) (by omega)
      omega
    by_cases hs : s = []
    · subst hs
      have hq : (bufContents w.buf ++ ([] : List Nat)) =
          bufContents w.buf := List.append_nil _
      have htc : takeCount w.ver C (bufContents w.buf ++
          ([] : List Nat)).length = 0 := by
        rw [hq]
        cases hver : w.ver with
        | One => exact takeCount_one_small C _ hC (by omega)
        | Two =>
          have := hv2 hver
          exact takeCount_two_small C _ (by omega)
      rw [htc, Nat.zero_div]
      constructor
      · intro _
        refine ⟨w, ?_, ?_, by omega, ?_, ?_, hcl, hv2, rfl, rfl, rfl⟩
        · rw [doWriteAux]
          simp
        · rw [List.take_zero, exactChunks_nil, encNF, List.append_nil]
        · simp
        · rw [List.drop_zero, List.append_nil]
      · intro hcon
        exfalso
        omega
    · -- inductive step: s is non-empty
      have hs1 : 1 ≤ s.length := by
        cases s with
        | nil => exact absurd rfl hs
        | cons a t => simp
      rw [doWriteAux, if_neg hs]
      cases hver : w.ver with
      | Two =>
        have hwlt : w.buf.write < C := hv2 hver
        set k := min (C - w.buf.write) s.length with hkdef
        have hk1 : 1 ≤ k := by
          rw [hkdef]
          omega
        have hkle : k ≤ s.length := by
          rw [hkdef]
          omega
        have hkC : k ≤ C - w.buf.write := by
          rw [hkdef]
          omega
        have hkl : (s.take k).length = k := by
          rw [List.length_take]
          omega
        have hkfst : (bufWrite C w.buf s).1 = k := by
          rw [bufWrite]
        have hbw : (bufWrite C w.buf s).2 =
            { w.buf with
              data := setRange w.buf.data w.buf.write (s.take k)
              write := w.buf.write + (s.take k).length } := by
          rw [bufWrite]
          dsimp only
          rw [hkl, ← hkdef]
        have hb1c : bufContents (bufWrite C w.buf s).2 =
            bufContents w.buf ++ s.take k := by
          rw [hbw]
          exact bufContents_append w.buf (s.take k) (by omega)
            (by rw [hkl]; omega)
        have hb1d : ((bufWrite C w.buf s).2).data.length = C := by
          rw [hbw]
          dsimp only
          rw [setRange_length _ _ _ (by rw [hkl]; omega)]
          exact hdl
        have hb1w : ((bufWrite C w.buf s).2).write = w.buf.write + k := by
          rw [hbw]
          dsimp only
          rw [hkl]
        have hb1r : ((bufWrite C w.buf s).2).read = 0 := by
          rw [hbw]
          exact hr0
        have hq : bufContents w.buf ++ s =
            (bufContents w.buf ++ s.take k) ++ s.drop k := by
          rw [List.append_assoc, List.take_append_drop]
        have hql : (bufContents w.buf ++ s).length =
            w.buf.write + s.length := by
          rw [List.length_append, hclen]
        dsimp only
        rw [hkfst]
        by_cases hfull : w.buf.write + k = C
        · -- buffer became full: flush now
          have hisfull : bufIsFull C (bufWrite C w.buf s).2 = true := by
            simp only [bufIsFull, bufLen, hb1w, hb1r, Nat.sub_zero]
            simp [hfull]
          rw [hisfull]
          simp only [if_true]
          have hwcl1 : WClean C
              (⟨w.out, w.ctr, w.eofB, (bufWrite C w.buf s).2, w.pfx, w.ad,
                Version.Two, w.nonces⟩ : WState) := by
            refine ⟨?_, ?_, ?_, ?_, ?_⟩ <;> dsimp only
            · exact hb1r
            · rw [hb1w]
              omega
            · exact hb1d
            · exact heofB
            · exact hctrle
          have hqsplitlen : (bufContents w.buf ++ s).length =
              C + (s.length - k) := by
            rw [hql]
            omega
          by_cases hmax : w.ctr = u32Max
          · -- the flush itself overflows
            have hfl2 : (flushInternal A
                (⟨w.out, w.ctr, w.eofB, (bufWrite C w.buf s).2, w.pfx, w.ad,
                  Version.Two, w.nonces⟩ : WState) false).2 =
                .error .CounterOverflow := by
              rw [flushInternal]
              simp [hmax]
            have hf1 : 1 ≤ takeCount Version.Two C
                (bufContents w.buf ++ s).length / C := by
              rw [hqsplitlen,
                takeCount_step_div .Two C _ hC (by intro h; cases h)]
              exact Nat.le_add_right 1 _
            constructor
            · intro hcon
              exfalso
              revert hcon hf1 hmax
              generalize takeCount Version.Two C
                (bufContents w.buf ++ s).length / C = F
              intro hmax hcon hf1
              omega
            · intro _
              cases hfl : flushInternal A
                  (⟨w.out, w.ctr, w.eofB, (bufWrite C w.buf s).2, w.pfx, w.ad,
                    Version.Two, w.nonces⟩ : WState) false with
              | mk w1' res =>
                rw [hfl] at hfl2
                dsimp only at hfl2
                subst hfl2
                exact ⟨w1', rfl⟩
          · -- flush succeeds; use the induction hypothesis
            obtain ⟨w2, m, hfl, hout2, hctr2, heofB2, hnonce2, hpfx2, had2,
              hver2, hr2, hw2, hd2⟩ :=
              flushInternal_char A hA C
                (⟨w.out, w.ctr, w.eofB, (bufWrite C w.buf s).2, w.pfx, w.ad,
                  Version.Two, w.nonces⟩ : WState) hwcl1 false
                (Or.inr hmax)
            rw [hfl]
            dsimp only
            simp only [Bool.false_eq_true, if_false] at hout2 hctr2 heofB2 hnonce2
            dsimp only at hpfx2 had2 hver2
            have hc2 : bufContents w2.buf = [] := bufContents_zero w2.buf hw2
            have hwcl2 : WClean C w2 :=
              ⟨hr2, by rw [hw2]; omega, hd2, heofB2,
                by rw [hctr2]; omega⟩
            have hih := ih (s.drop k) w2 hwcl2
              (by intro _; omega)
              (by rw [List.length_drop]; omega)
            rw [hc2, List.nil_append] at hih
            have hq2l : (s.drop k).length = s.length - k :=
              List.length_drop k s
            have htcstep : takeCount Version.Two C
                (bufContents w.buf ++ s).length =
                C + takeCount Version.Two C (s.drop k).length := by
              rw [hqsplitlen, hq2l,
                takeCount_step .Two C _ hC (by intro h; cases h)]
            have htcdiv : takeCount Version.Two C
                (bufContents w.buf ++ s).length / C =
                1 + takeCount Version.Two C (s.drop k).length / C := by
              rw [hqsplitlen, hq2l,
                takeCount_step_div .Two C _ hC (by intro h; cases h)]
            have hb1len : (bufContents w.buf ++ s.take k).length = C := by
              rw [List.length_append, hclen, hkl]
              exact hfull
            have htake : (bufContents w.buf ++ s).take
                (takeCount Version.Two C (bufContents w.buf ++ s).length) =
                (bufContents w.buf ++ s.take k) ++ (s.drop k).take
                  (takeCount Version.Two C (s.drop k).length) := by
              rw [htcstep]
              rw [show (bufContents w.buf ++ s) =
                ((bufContents w.buf ++ s.take k) ++ s.drop k) from hq]
              rw [List.take_append_eq_append_take,
                List.take_of_length_le (by rw [hb1len]; omega), hb1len,
                show C + takeCount Version.Two C (s.drop k).length - C =
                  takeCount Version.Two C (s.drop k).length from by omega]
            have hdrop : (bufContents w.buf ++ s).drop
                (takeCount Version.Two C (bufContents w.buf ++ s).length) =
                (s.drop k).drop
                  (takeCount Version.Two C (s.drop k).length) := by
              rw [htcstep]
              rw [show (bufContents w.buf ++ s) =
                ((bufContents w.buf ++ s.take k) ++ s.drop k) from hq]
              rw [List.drop_append_eq_append_drop,
                List.drop_eq_nil_of_le (by rw [hb1len]; omega), hb1len,
                show C + takeCount Version.Two C (s.drop k).length - C =
                  takeCount Version.Two C (s.drop k).length from by omega,
                List.nil_append]
            have hctr2' : w2.ctr = w.ctr + 1 := hctr2
            constructor
            · intro hcon
              have hcon2 : w2.ctr + takeCount w2.ver C
                  (s.drop k).length / C ≤ u32Max := by
                rw [hctr2', hver2]
                revert hcon
                rw [htcdiv]
                generalize takeCount Version.Two C (s.drop k).length / C = F
                intro hcon
                omega
              obtain ⟨w', hrun, hout', hctr', hnonce', hcont', hwcl', hv2',
                hpfx', had', hver'⟩ := hih.1 hcon2
              refine ⟨w', hrun, ?_, ?_, ?_, ?_, hwcl', ?_, ?_, ?_, ?_⟩
              · rw [hout', hout2, hpfx2, had2, hver2]
                rw [htake, exactChunks_cons C hC _ _ hb1len, encNF, hb1c,
                  hctr2', List.append_assoc]
              · rw [hctr', hctr2', hver2, htcdiv]
                generalize takeCount Version.Two C (s.drop k).length / C = F
                omega
              · rw [hnonce', hnonce2, hpfx2, hctr2', hver2, htcdiv,
                  nonce_range_shift]
                simp [heofB]
              · rw [hcont', hver2, hdrop]
              · exact fun _ => hv2' (hver'.trans hver2)
              · rw [hpfx', hpfx2]
              · rw [had', had2]
              · rw [hver', hver2]
            · intro hcon
              have hcon2 : ¬ (w2.ctr + takeCount w2.ver C
                  (s.drop k).length / C ≤ u32Max) := by
                rw [hctr2', hver2]
                revert hcon
                rw [htcdiv]
                generalize takeCount Version.Two C (s.drop k).length / C = F
                intro hcon hcon3
                exact hcon (by omega)
              obtain ⟨w', hrun⟩ := hih.2 hcon2
              exact ⟨w', hrun⟩
        · -- buffer not full: everything fitted, k = |s|
          have hks : k = s.length := by
            rcases le_total (C - w.buf.write) s.length with h | h
            · exfalso
              rw [hkdef, min_eq_left h] at hfull
              omega
            · rw [hkdef]
              exact min_eq_right h
          have hisfull : bufIsFull C (bufWrite C w.buf s).2 = false := by
            simp only [bufIsFull, bufLen, hb1w, hb1r, Nat.sub_zero]
            simp only [beq_eq_false_iff_ne, ne_eq]
            exact hfull
          rw [hisfull]
          simp only [Bool.false_eq_true, if_false]
          have hdropnil : s.drop k = [] := by
            rw [hks, List.drop_length]
          have hwcl1 : WClean C
              (⟨w.out, w.ctr, w.eofB, (bufWrite C w.buf s).2, w.pfx, w.ad,
                Version.Two, w.nonces⟩ : WState) := by
            refine ⟨?_, ?_, ?_, ?_, ?_⟩ <;> dsimp only
            · exact hb1r
            · rw [hb1w]
              omega
            · exact hb1d
            · exact heofB
            · exact hctrle
          have hih := ih (s.drop k)
            (⟨w.out, w.ctr, w.eofB, (bufWrite C w.buf s).2, w.pfx, w.ad,
              Version.Two, w.nonces⟩ : WState) hwcl1
            (by intro _; dsimp only; rw [hb1w]; omega)
            (by simp only [hdropnil, List.length_nil]; omega)
          dsimp only at hih
          rw [hb1c, hdropnil, List.append_nil, hks, List.take_length] at hih
          rw [hdropnil]
          exact hih
      | One =>
        by_cases hfullb : w.buf.write = C
        · -- buffer full on entry: version 1 flushes first
          have hisfull : bufIsFull C w.buf = true := by
            simp only [bufIsFull, bufLen, hr0, Nat.sub_zero]
            simp [hfullb]
          dsimp only
          rw [hisfull]
          simp only [if_true]
          have hclen2 : (bufContents w.buf).length = C := by
            rw [hclen]
            exact hfullb
          have hql : (bufContents w.buf ++ s).length = C + s.length := by
            rw [List.length_append, hclen, hfullb]
          have htcstep : takeCount Version.One C
              (bufContents w.buf ++ s).length =
              C + takeCount Version.One C s.length := by
            rw [hql, takeCount_step .One C _ hC (fun _ => hs1)]
          have htcdiv : takeCount Version.One C
              (bufContents w.buf ++ s).length / C =
              1 + takeCount Version.One C s.length / C := by
            rw [hql, takeCount_step_div .One C _ hC (fun _ => hs1)]
          by_cases hmax : w.ctr = u32Max
          · -- the flush itself overflows
            have hfl2 : (flushInternal A w false).2 =
                .error .CounterOverflow := by
              rw [flushInternal]
              simp [hmax]
            have hf1 : 1 ≤ takeCount Version.One C
                (bufContents w.buf ++ s).length / C := by
              rw [htcdiv]
              exact Nat.le_add_right 1 _
            constructor
            · intro hcon
              exfalso
              revert hcon hf1 hmax
              generalize takeCount Version.One C
                (bufContents w.buf ++ s).length / C = F
              intro hmax hcon hf1
              omega
            · intro _
              cases hfl : flushInternal A w false with
              | mk w1' res =>
                rw [hfl] at hfl2
                dsimp only at hfl2
                subst hfl2
                exact ⟨w1', rfl⟩
          · -- flush succeeds; then write into the emptied buffer
            obtain ⟨w2, m, hfl, hout2, hctr2, heofB2, hnonce2, hpfx2, had2,
              hver2, hr2, hw2, hd2⟩ :=
              flushInternal_char A hA C w hcl false (Or.inr hmax)
            rw [hfl]
            dsimp only
            simp only [Bool.false_eq_true, if_false] at hout2 hctr2 heofB2 hnonce2
            have hc2 : bufContents w2.buf = [] := bufContents_zero w2.buf hw2
            set k2 := min (C - w2.buf.write) s.length with hk2def
            have hk2C : k2 = min C s.length := by
              rw [hk2def, hw2, Nat.sub_zero]
            have hk21 : 1 ≤ k2 := by
              rw [hk2C]
              omega
            have hk2le : k2 ≤ s.length := by
              rw [hk2C]
              omega
            have hk2lC : k2 ≤ C := by
              rw [hk2C]
              omega
            have hk2l : (s.take k2).length = k2 := by
              rw [List.length_take]
              omega
            have hk2fst : (bufWrite C w2.buf s).1 = k2 := by
              rw [bufWrite]
            have hbw2 : (bufWrite C w2.buf s).2 =
                { w2.buf with
                  data := setRange w2.buf.data w2.buf.write (s.take k2)
                  write := w2.buf.write + (s.take k2).length } := by
              rw [bufWrite]
              dsimp only
              rw [hk2l, ← hk2def]
            have hb2c : bufContents (bufWrite C w2.buf s).2 = s.take k2 := by
              rw [hbw2, bufContents_append w2.buf (s.take k2)
                (by omega) (by rw [hk2l, hd2]; omega), hc2, List.nil_append]
            have hb2d : ((bufWrite C w2.buf s).2).data.length = C := by
              rw [hbw2]
              dsimp only
              rw [setRange_length _ _ _ (by rw [hk2l, hd2]; omega)]
              exact hd2
            have hb2w : ((bufWrite C w2.buf s).2).write =
                w2.buf.write + k2 := by
              rw [hbw2]
              dsimp only
              rw [hk2l]
            have hb2r : ((bufWrite C w2.buf s).2).read = 0 := by
              rw [hbw2]
              exact hr2
            rw [hk2fst]
            have hwcl3 : WClean C
                { w2 with buf := (bufWrite C w2.buf s).2 } := by
              refine ⟨?_, ?_, ?_, ?_, ?_⟩ <;> dsimp only
              · exact hb2r
              · rw [hb2w]
                omega
              · exact hb2d
              · exact heofB2
              · rw [hctr2]
                omega
            have hih := ih (s.drop k2)
              { w2 with buf := (bufWrite C w2.buf s).2 } hwcl3
              (by
                intro h
                dsimp only at h
                rw [hver2, hver] at h
                exact Version.noConfusion h)
              (by rw [List.length_drop]; omega)
            dsimp only at hih
            have hqs : bufContents (bufWrite C w2.buf s).2 ++ s.drop k2 =
                s := by
              rw [hb2c, List.take_append_drop]
            rw [hqs] at hih
            have htake : (bufContents w.buf ++ s).take
                (takeCount Version.One C (bufContents w.buf ++ s).length) =
                bufContents w.buf ++
                  s.take (takeCount Version.One C s.length) := by
              rw [htcstep, List.take_append_eq_append_take,
                List.take_of_length_le (by rw [hclen2]; omega), hclen2,
                show C + takeCount Version.One C s.length - C =
                  takeCount Version.One C s.length from by omega]
            have hdropq : (bufContents w.buf ++ s).drop
                (takeCount Version.One C (bufContents w.buf ++ s).length) =
                s.drop (takeCount Version.One C s.length) := by
              rw [htcstep, List.drop_append_eq_append_drop,
                List.drop_eq_nil_of_le (by rw [hclen2]; omega), hclen2,
                show C + takeCount Version.One C s.length - C =
                  takeCount Version.One C s.length from by omega,
                List.nil_append]
            have hchunks : exactChunks C (bufContents w.buf ++
                s.take (takeCount Version.One C s.length)) =
                bufContents w.buf ::
                  exactChunks C (s.take (takeCount Version.One C s.length)) :=
              exactChunks_cons C hC _ _ hclen2
            constructor
            · intro hcon
              have hcon2 : w2.ctr + takeCount w2.ver C s.length / C ≤
                  u32Max := by
                rw [hctr2, hver2, hver]
                revert hcon
                rw [htcdiv]
                generalize takeCount Version.One C s.length / C = F
                intro hcon
                omega
              obtain ⟨w', hrun, hout', hctr', hnonce', hcont', hwcl', hv2',
                hpfx', had', hver'⟩ := hih.1 hcon2
              refine ⟨w', hrun, ?_, ?_, ?_, ?_, hwcl', hv2', ?_, ?_, ?_⟩
              · rw [hout', hout2, hpfx2, had2, hver2, hver, hctr2, htake,
                  hchunks, encNF, List.append_assoc]
              · rw [hctr', hctr2, hver2, hver, htcdiv]
                generalize takeCount Version.One C s.length / C = F
                omega
              · rw [hnonce', hnonce2, hpfx2, hctr2, hver2, hver, htcdiv,
                  nonce_range_shift]
                simp
              · rw [hcont', hver2, hver, hdropq]
              · rw [hpfx', hpfx2]
              · rw [had', had2]
              · rw [hver', hver2, hver]
            · intro hcon
              have hcon2 : ¬ (w2.ctr + takeCount w2.ver C s.length / C ≤
                  u32Max) := by
                rw [hctr2, hver2, hver]
                revert hcon
                rw [htcdiv]
                generalize takeCount Version.One C s.length / C = F
                intro hcon hcon3
                exact hcon (by omega)
              obtain ⟨w', hrun⟩ := hih.2 hcon2
              exact ⟨w', hrun⟩
        · -- buffer not full on entry: write directly, recurse
          have hwlt : w.buf.write < C := by omega
          have hisfull : bufIsFull C w.buf = false := by
            simp only [bufIsFull, bufLen, hr0, Nat.sub_zero]
            simp only [beq_eq_false_iff_ne, ne_eq]
            exact hfullb
          dsimp only
          rw [hisfull]
          simp only [Bool.false_eq_true, if_false]
          set k := min (C - w.buf.write) s.length with hkdef
          have hk1 : 1 ≤ k := by
            rw [hkdef]
            omega
          have hkle : k ≤ s.length := by
            rw [hkdef]
            omega
          have hkC : k ≤ C - w.buf.write := by
            rw [hkdef]
            omega
          have hkl : (s.take k).length = k := by
            rw [List.length_take]
            omega
          have hbw : (bufWrite C w.buf s).2 =
              { w.buf with
                data := setRange w.buf.data w.buf.write (s.take k)
                write := w.buf.write + (s.take k).length } := by
            rw [bufWrite]
            dsimp only
            rw [hkl, ← hkdef]
          have hb1c : bufContents (bufWrite C w.buf s).2 =
              bufContents w.buf ++ s.take k := by
            rw [hbw]
            exact bufContents_append w.buf (s.take k) (by omega)
              (by rw [hkl]; omega)
          have hb1d : ((bufWrite C w.buf s).2).data.length = C := by
            rw [hbw]
            dsimp only
            rw [setRange_length _ _ _ (by rw [hkl]; omega)]
            exact hdl
          have hb1w : ((bufWrite C w.buf s).2).write = w.buf.write + k := by
            rw [hbw]
            dsimp only
            rw [hkl]
          have hb1r : ((bufWrite C w.buf s).2).read = 0 := by
            rw [hbw]
            exact hr0
          have hq : bufContents w.buf ++ s =
              (bufContents w.buf ++ s.take k) ++ s.drop k := by
            rw [List.append_assoc, List.take_append_drop]
          have hwcl1 : WClean C { w with buf := (bufWrite C w.buf s).2 } := by
            refine ⟨?_, ?_, ?_, ?_, ?_⟩ <;> dsimp only
            · exact hb1r
            · rw [hb1w]
              omega
            · exact hb1d
            · exact heofB
            · exact hctrle
          have hih := ih (s.drop k) { w with buf := (bufWrite C w.buf s).2 }
            hwcl1
            (by
              intro h
              dsimp only at h
              rw [hver] at h
              exact Version.noConfusion h)
            (by rw [List.length_drop]; omega)
          dsimp only at hih
          rw [hb1c, ← hq] at hih
          rw [← hver]
          exact hih

theorem takeCount_compose (ver : Version) (C : Nat) (hC : 0 < C)
    (n m : Nat) :
    takeCount ver C (n + m) =
      takeCount ver C n + takeCount ver C (n - takeCount ver C n + m) := by
  cases ver with
  | Two =>
    simp only [takeCount]
    have h0 : C * (n / C) = n / C * C := Nat.mul_comm _ _
    have h1 : n / C * C ≤ n := Nat.div_mul_le_self n C
    have h4 := Nat.div_add_mod n C
    have h2 : n - n / C * C = n % C := by omega
    rw [h2]
    have h3 : n + m = C * (n / C) + (n % C + m) := by omega
    rw [h3, Nat.mul_add_div hC, Nat.add_mul]
  | One =>
    by_cases hn : n = 0
    · subst hn
      simp [takeCount, lastLen]
    · have hmod := Nat.div_add_mod (n - 1) C
      have hrC : (n - 1) % C < C := Nat.mod_lt _ hC
      have htc1 : takeCount .One C n = C * ((n - 1) / C) := by
        simp only [takeCount, lastLen, if_neg hn]
        omega
      rw [htc1]
      have hdiff : n - C * ((n - 1) / C) = (n - 1) % C + 1 := by omega
      rw [hdiff]
      have hm1 : (n + m - 1) % C = ((n - 1) % C + m) % C := by
        have h5 : n + m - 1 = C * ((n - 1) / C) + ((n - 1) % C + m) := by
          omega
        rw [h5, Nat.mul_add_mod]
      have hx : ((n - 1) % C + m) % C ≤ (n - 1) % C + m := Nat.mod_le _ _
      have hxC : ((n - 1) % C + m) % C < C := Nat.mod_lt _ hC
      simp only [takeCount, lastLen,
        if_neg (show ¬ n + m = 0 from by omega),
        if_neg (show ¬ (n - 1) % C + 1 + m = 0 from by omega)]
      have hm2 : ((n - 1) % C + 1 + m - 1) % C = ((n - 1) % C + m) % C := by
        have h6 : (n - 1) % C + 1 + m - 1 = (n - 1) % C + m := by omega
        rw [h6]
      rw [hm1, hm2]
      omega

theorem div_add_of_muls (C a b : Nat) (hC : 0 < C)
    (ha : a / C * C = a) (hb : b / C * C = b) :
    (a + b) / C = a / C + b / C := by
  conv_lhs => rw [← ha, ← hb]
  rw [← Nat.add_mul, Nat.mul_div_cancel _ hC]

theorem take_append_exact (a b : List Nat) (t u : Nat) (ha : a.length = t) :
    (a ++ b).take (t + u) = a ++ b.take u := by
  rw [List.take_append_eq_append_take, List.take_of_length_le (by omega),
    ha, show t + u - t = u from by omega]

theorem drop_append_exact (a b : List Nat) (t u : Nat) (ha : a.length = t) :
    (a ++ b).drop (t + u) = b.drop u := by
  rw [List.drop_append_eq_append_drop, List.drop_eq_nil_of_le (by omega),
    ha, show t + u - t = u from by omega, List.nil_append]

theorem exactChunks_append (C : Nat) (hC : 0 < C) :
    ∀ (f : Nat) (a b : List Nat), a.length = f * C →
      exactChunks C (a ++ b) = exactChunks C a ++ exactChunks C b := by
  intro f
  induction f with
  | zero =>
    intro a b ha
    have ha0 : a = [] := List.length_eq_zero.mp (by omega)
    subst ha0
    simp [exactChunks_nil]
  | succ f ih =>
    intro a b ha
    have haC : C ≤ a.length := by
      rw [ha, Nat.add_mul, Nat.one_mul]
      omega
    have htl : (a.take C).length = C := by
      rw [List.length_take]
      omega
    have hdl : (a.drop C).length = f * C := by
      rw [List.length_drop, ha, Nat.add_mul, Nat.one_mul]
      omega
    rw [show a ++ b = a.take C ++ (a.drop C ++ b) from by
        rw [← List.append_assoc, List.take_append_drop],
      exactChunks_cons C hC _ _ htl, ih (a.drop C) b hdl]
    conv_rhs => rw [show a = a.take C ++ a.drop C from
        (List.take_append_drop C a).symm]
    rw [exactChunks_cons C hC _ _ htl, List.cons_append]

theorem encNF_append (A : AeadAlg) (pfxv ad : List Nat) :
    ∀ (l1 l2 : List (List Nat)) (c : Nat),
      encNF A pfxv ad c (l1 ++ l2) =
        encNF A pfxv ad c l1 ++ encNF A pfxv ad (c + l1.length) l2 := by
  intro l1
  induction l1 with
  | nil =>
    intro l2 c
    simp [encNF]
  | cons p ps ih =>
    intro l2 c
    simp only [List.cons_append, encNF, List.length_cons, List.append_eq]
    rw [ih l2 (c + 1), List.append_assoc,
      show c + (ps.length + 1) = c + 1 + ps.length from by omega]

theorem nonce_range_add (pfxv : List Nat) (c f1 f2 : Nat) :
    (List.range (f1 + f2)).map (fun i => (⟨pfxv, c + i, 0⟩ : NonceV)) =
      (List.range f1).map (fun i => (⟨pfxv, c + i, 0⟩ : NonceV)) ++
        (List.range f2).map
          (fun i => (⟨pfxv, c + f1 + i, 0⟩ : NonceV)) := by
  rw [List.range_add, List.map_append, List.map_map]
  congr 1
  apply List.map_congr_left
  intro a _
  show (⟨pfxv, c + (f1 + a), 0⟩ : NonceV) = ⟨pfxv, c + f1 + a, 0⟩
  rw [show c + (f1 + a) = c + f1 + a from by omega]

theorem runWrites_char (A : AeadAlg) (hA : AeadOk A) (C : Nat) (hC : 0 < C) :
    ∀ (splits : List (List Nat)) (w : WState), WClean C w →
      (w.ver = .Two → w.buf.write < C) →
      ((w.ctr + takeCount w.ver C
          (bufContents w.buf ++ splits.join).length / C ≤ u32Max →
        ∃ w', runWrites A C w splits = some (w', .ok ()) ∧
          w'.out = w.out ++ encNF A w.pfx w.ad w.ctr
            (exactChunks C ((bufContents w.buf ++ splits.join).take
              (takeCount w.ver C (bufContents w.buf ++ splits.join).length))) ∧
          w'.ctr = w.ctr +
            takeCount w.ver C (bufContents w.buf ++ splits.join).length / C ∧
          w'.nonces = w.nonces ++ (List.range
            (takeCount w.ver C
              (bufContents w.buf ++ splits.join).length / C)).map
              (fun i => ⟨w.pfx, w.ctr + i, 0⟩) ∧
          bufContents w'.buf = (bufContents w.buf ++ splits.join).drop
            (takeCount w.ver C (bufContents w.buf ++ splits.join).length) ∧
          WClean C w' ∧ (w'.ver = .Two → w'.buf.write < C) ∧
          w'.pfx = w.pfx ∧ w'.ad = w.ad ∧ w'.ver = w.ver) ∧
       (¬ (w.ctr + takeCount w.ver C
          (bufContents w.buf ++ splits.join).length / C ≤ u32Max) →
        ∃ w', runWrites A C w splits =
          some (w', .error .CounterOverflow))) := by
  intro splits
  induction splits with
  | nil =>
    intro w hcl hv2
    obtain ⟨hr0, hwle, hdl, heofB, hctrle⟩ := hcl
    have hclen : (bufContents w.buf).length = w.buf.write := by
      have := bufContents_length w.buf (by omega) (by omega)
      omega
    have hq : bufContents w.buf ++ List.join [] = bufContents w.buf := by
      simp
    have htc : takeCount w.ver C
        (bufContents w.buf ++ List.join []).length = 0 := by
      rw [hq]
      cases hver : w.ver with
      | One => exact takeCount_one_small C _ hC (by omega)
      | Two =>
        have := hv2 hver
        exact takeCount_two_small C _ (by omega)
    rw [htc, Nat.zero_div]
    constructor
    · intro _
      refine ⟨w, rfl, ?_, by omega, ?_, ?_,
        ⟨hr0, hwle, hdl, heofB, hctrle⟩, hv2, rfl, rfl, rfl⟩
      · rw [List.take_zero, exactChunks_nil, encNF, List.append_nil]
      · simp
      · rw [List.drop_zero, hq]
    · intro hcon
      exfalso
      omega
  | cons s ss ih =>
    intro w hcl hv2
    have hcl' := hcl
    obtain ⟨hr0, hwle, hdl, heofB, hctrle⟩ := hcl'
    have hclen : (bufContents w.buf).length = w.buf.write := by
      have := bufContents_length w.buf (by omega) (by omega)
      omega
    have hdw := doWriteAux_char A hA C hC (s.length + 2) s w hcl hv2
      (by omega)
    have ht1le : takeCount w.ver C (bufContents w.buf ++ s).length ≤
        (bufContents w.buf ++ s).length := takeCount_le _ _ _
    have hqjoin : bufContents w.buf ++ List.join (s :: ss) =
        (bufContents w.buf ++ s) ++ List.join ss := by
      rw [List.append_assoc]
      rfl
    have hqlen : (bufContents w.buf ++ List.join (s :: ss)).length =
        (bufContents w.buf ++ s).length + (List.join ss).length := by
      rw [hqjoin, List.length_append]
    have hcompose : takeCount w.ver C
        (bufContents w.buf ++ List.join (s :: ss)).length =
        takeCount w.ver C (bufContents w.buf ++ s).length +
          takeCount w.ver C
            ((bufContents w.buf ++ s).length -
              takeCount w.ver C (bufContents w.buf ++ s).length +
              (List.join ss).length) := by
      rw [hqlen]
      exact takeCount_compose w.ver C hC _ _
    have hdm1 := takeCount_div_mul w.ver C
      (bufContents w.buf ++ s).length hC
    have hdm2 := takeCount_div_mul w.ver C
      ((bufContents w.buf ++ s).length -
        takeCount w.ver C (bufContents w.buf ++ s).length +
        (List.join ss).length) hC
    have hdivadd : takeCount w.ver C
        (bufContents w.buf ++ List.join (s :: ss)).length / C =
        takeCount w.ver C (bufContents w.buf ++ s).length / C +
          takeCount w.ver C
            ((bufContents w.buf ++ s).length -
              takeCount w.ver C (bufContents w.buf ++ s).length +
              (List.join ss).length) / C := by
      rw [hcompose]
      exact div_add_of_muls C _ _ hC hdm1 hdm2
    by_cases hc1 : w.ctr + takeCount w.ver C
        (bufContents w.buf ++ s).length / C ≤ u32Max
    · -- the first write succeeds
      obtain ⟨w1, hrun1, hout1, hctr1, hnonce1, hcont1, hwcl1, hv21,
        hpfx1, had1, hver1⟩ := hdw.1 hc1
      have hih := ih w1 hwcl1 hv21
      rw [hver1, hpfx1, hcont1, hctr1] at hih
      have hq2len : ((bufContents w.buf ++ s).drop
          (takeCount w.ver C (bufContents w.buf ++ s).length) ++
            List.join ss).length =
          (bufContents w.buf ++ s).length -
            takeCount w.ver C (bufContents w.buf ++ s).length +
            (List.join ss).length := by
        rw [List.length_append, List.length_drop]
      rw [hq2len] at hih
      have hstep : runWrites A C w (s :: ss) = runWrites A C w1 ss := by
        rw [runWrites]
        rw [show doWrite A C w s = some (w1, Except.ok ()) from hrun1]
      rw [hstep]
      have htake1 : ((bufContents w.buf ++ s).take
          (takeCount w.ver C (bufContents w.buf ++ s).length)).length =
          takeCount w.ver C (bufContents w.buf ++ s).length := by
        rw [List.length_take]
        omega
      have hqsplit : bufContents w.buf ++ List.join (s :: ss) =
          (bufContents w.buf ++ s).take
            (takeCount w.ver C (bufContents w.buf ++ s).length) ++
          ((bufContents w.buf ++ s).drop
            (takeCount w.ver C (bufContents w.buf ++ s).length) ++
            List.join ss) := by
        rw [hqjoin, ← List.append_assoc, List.take_append_drop]
      have htakeq : (bufContents w.buf ++ List.join (s :: ss)).take
          (takeCount w.ver C
            (bufContents w.buf ++ List.join (s :: ss)).length) =
          (bufContents w.buf ++ s).take
            (takeCount w.ver C (bufContents w.buf ++ s).length) ++
          ((bufContents w.buf ++ s).drop
            (takeCount w.ver C (bufContents w.buf ++ s).length) ++
            List.join ss).take
            (takeCount w.ver C
              ((bufContents w.buf ++ s).length -
                takeCount w.ver C (bufContents w.buf ++ s).length +
                (List.join ss).length)) := by
        rw [hcompose, hqsplit, take_append_exact _ _ _ _ htake1]
      have hdropq : (bufContents w.buf ++ List.join (s :: ss)).drop
          (takeCount w.ver C
            (bufContents w.buf ++ List.join (s :: ss)).length) =
          ((bufContents w.buf ++ s).drop
            (takeCount w.ver C (bufContents w.buf ++ s).length) ++
            List.join ss).drop
            (takeCount w.ver C
              ((bufContents w.buf ++ s).length -
                takeCount w.ver C (bufContents w.buf ++ s).length +
                (List.join ss).length)) := by
        rw [hcompose, hqsplit, drop_append_exact _ _ _ _ htake1]
      have hchunksapp : exactChunks C
          ((bufContents w.buf ++ s).take
            (takeCount w.ver C (bufContents w.buf ++ s).length) ++
          ((bufContents w.buf ++ s).drop
            (takeCount w.ver C (bufContents w.buf ++ s).length) ++
            List.join ss).take
            (takeCount w.ver C
              ((bufContents w.buf ++ s).length -
                takeCount w.ver C (bufContents w.buf ++ s).length +
                (List.join ss).length))) =
          exactChunks C ((bufContents w.buf ++ s).take
            (takeCount w.ver C (bufContents w.buf ++ s).length)) ++
          exactChunks C (((bufContents w.buf ++ s).drop
            (takeCount w.ver C (bufContents w.buf ++ s).length) ++
            List.join ss).take
            (takeCount w.ver C
              ((bufContents w.buf ++ s).length -
                takeCount w.ver C (bufContents w.buf ++ s).length +
                (List.join ss).length))) :=
        exactChunks_append C hC
          (takeCount w.ver C (bufContents w.buf ++ s).length / C) _ _
          (by rw [htake1]; exact hdm1.symm)
      have hchunkslen : (exactChunks C ((bufContents w.buf ++ s).take
          (takeCount w.ver C (bufContents w.buf ++ s).length))).length =
          takeCount w.ver C (bufContents w.buf ++ s).length / C := by
        obtain ⟨hl, _, _⟩ := exactChunks_full C hC
          (takeCount w.ver C (bufContents w.buf ++ s).length / C) _
          (by rw [htake1]; exact hdm1.symm)
        exact hl
      constructor
      · intro hcon
        have hcon2 : w.ctr +
            takeCount w.ver C (bufContents w.buf ++ s).length / C +
            takeCount w.ver C
              ((bufContents w.buf ++ s).length -
                takeCount w.ver C (bufContents w.buf ++ s).length +
                (List.join ss).length) / C ≤ u32Max := by
          rw [hdivadd] at hcon
          omega
        obtain ⟨w', hrun', hout', hctr', hnonce', hcont', hwcl', hv2',
          hpfx', had', hver'⟩ := hih.1 hcon2
        refine ⟨w', hrun', ?_, ?_, ?_, ?_, hwcl', hv2', ?_, ?_, ?_⟩
        · rw [hout', hout1, had1, htakeq, hchunksapp,
            encNF_append, hchunkslen, List.append_assoc]
        · rw [hctr', hdivadd]
          omega
        · rw [hnonce', hnonce1, hdivadd, nonce_range_add,
            List.append_assoc]
        · rw [hcont', hdropq]
        · rw [hpfx']
        · rw [had', had1]
        · rw [hver']
      · intro hcon
        have hcon2 : ¬ (w.ctr +
            takeCount w.ver C (bufContents w.buf ++ s).length / C +
            takeCount w.ver C
              ((bufContents w.buf ++ s).length -
                takeCount w.ver C (bufContents w.buf ++ s).length +
                (List.join ss).length) / C ≤ u32Max) := by
          rw [hdivadd] at hcon
          intro hcon3
          exact hcon (by omega)
        obtain ⟨w', hrun'⟩ := hih.2 hcon2
        exact ⟨w', hrun'⟩
    · -- the first write already overflows the counter
      constructor
      · intro hcon
        exfalso
        rw [hdivadd] at hcon
        exact hc1 (le_trans
          (Nat.add_le_add_left (Nat.le_add_right _ _) w.ctr) hcon)
      · intro _
        obtain ⟨w1, hrun1⟩ := hdw.2 hc1
        refine ⟨w1, ?_⟩
        rw [runWrites]
        rw [show doWrite A C w s = some (w1, Except.error .CounterOverflow)
          from hrun1]

theorem encChunk_length (A : AeadAlg) (hA : AeadOk A) (nn : NonceV)
    (ad p : List Nat) :
    (encChunk A nn ad p).length = p.length + A.tagSize := by
  obtain ⟨h1, h2, _, _⟩ := hA
  rw [encChunk, List.length_append, h1, h2]

theorem encChunksF_nil (A : AeadAlg) (pfxv ad : List Nat) (c : Nat) :
    encChunksF A pfxv ad c [] = [] := rfl

theorem encChunksF_single (A : AeadAlg) (pfxv ad : List Nat) (c : Nat)
    (p : List Nat) :
    encChunksF A pfxv ad c [p] = encChunk A ⟨pfxv, c, 1⟩ ad p := rfl

theorem encChunksF_cons2 (A : AeadAlg) (pfxv ad : List Nat) (c : Nat)
    (p q : List Nat) (ps : List (List Nat)) :
    encChunksF A pfxv ad c (p :: q :: ps) =
      encChunk A ⟨pfxv, c, 0⟩ ad p ++ encChunksF A pfxv ad (c + 1) (q :: ps) :=
  rfl

theorem doRead_serve (A : AeadAlg) (C : Nat) (r : RState) (d : Nat)
    (h : (bufRead r.buf d).1 ≠ []) :
    doRead A C r d = some ({ r with buf := (bufRead r.buf d).2 },
      .ok (bufRead r.buf d).1) := by
  rw [doRead]
  dsimp only
  rw [if_neg (fun hc => h (List.length_eq_zero.mp hc.1)),
    if_pos (fun hc => h (List.length_eq_zero.mp hc))]

theorem doRead_eofstop (A : AeadAlg) (C : Nat) (r : RState) (d : Nat)
    (hcont : bufContents r.buf = []) (heof : r.eof = true) :
    doRead A C r d = some ({ r with buf := (bufRead r.buf d).2 }, .ok []) := by
  have htaken : (bufRead r.buf d).1 = [] := by
    simp [bufRead, hcont]
  rw [doRead]
  dsimp only
  rw [if_pos ⟨by rw [htaken]; rfl, Or.inr heof⟩]

theorem take_append_len (a b : List Nat) (t : Nat) (ha : a.length = t) :
    (a ++ b).take t = a := by
  rw [List.take_append_eq_append_take, List.take_of_length_le (by omega),
    ha, Nat.sub_self, List.take_zero, List.append_nil]

theorem drop_append_len (a b : List Nat) (t : Nat) (ha : a.length = t) :
    (a ++ b).drop t = b := by
  rw [List.drop_append_eq_append_drop, List.drop_eq_nil_of_le (by omega),
    ha, Nat.sub_self, List.drop_zero, List.nil_append]

theorem doRead_serve_mid (A : AeadAlg) (C : Nat) (r : RState) (d : Nat)
    (c : Nat) (rem : List Nat) (pts : List (List Nat)) (hd : 0 < d)
    (hmid : RMid A C r c rem pts) (hrem : rem ≠ []) :
    doRead A C r d = some ({ r with buf := (bufRead r.buf d).2 },
      .ok (rem.take (min rem.length d))) ∧
    RMid A C { r with buf := (bufRead r.buf d).2 } c
      (rem.drop (min rem.length d)) pts ∧
    1 ≤ min rem.length d := by
  obtain ⟨hctr0, hsrc, hcont, hrw1, hrw2, hdlen, heofp, hnep⟩ := hmid
  have htaken : (bufRead r.buf d).1 = rem.take (min rem.length d) := by
    simp only [bufRead]
    rw [hcont]
  have hmin : 1 ≤ min rem.length d := by
    have h1 : 0 < rem.length := List.length_pos.mpr hrem
    omega
  have htne : (bufRead r.buf d).1 ≠ [] := by
    rw [htaken]
    intro h
    have h2 := congrArg List.length h
    rw [List.length_take, List.length_nil] at h2
    omega
  have hb2r : (bufRead r.buf d).2 =
      { r.buf with read := r.buf.read + min rem.length d } := by
    simp only [bufRead]
    rw [hcont]
  have hlen := bufContents_length r.buf hrw1 hrw2
  rw [hcont] at hlen
  refine ⟨by rw [doRead_serve A C r d htne, htaken], ?_, hmin⟩
  refine ⟨hctr0, hsrc, ?_, ?_, ?_, ?_, heofp, hnep⟩
  · show bufContents (bufRead r.buf d).2 = rem.drop (min rem.length d)
    rw [hb2r, bufContents_addRead, hcont]
  · show (bufRead r.buf d).2.read ≤ (bufRead r.buf d).2.write
    rw [hb2r]
    dsimp only
    omega
  · show (bufRead r.buf d).2.write ≤ (bufRead r.buf d).2.data.length
    rw [hb2r]
    dsimp only
    exact hrw2
  · show (bufRead r.buf d).2.data.length = C + A.tagSize
    rw [hb2r]
    exact hdlen

theorem doRead_nonfinal (A : AeadAlg) (hA : AeadOk A) (C : Nat) (hC : 0 < C)
    (r : RState) (d : Nat) (c : Nat) (p : List Nat) (rest : List (List Nat))
    (hd : 0 < d) (hmid : RMid A C r c [] (p :: rest)) (hrest : rest ≠ [])
    (hp : p.length = C) (hcmax : c ≠ u32Max) :
    ∃ r1, doRead A C r d = some (r1, .ok (p.take (min p.length d))) ∧
      RMid A C r1 (c + 1) (p.drop (min p.length d)) rest ∧
      r1.ver = r.ver ∧ 1 ≤ min p.length d := by
  obtain ⟨hctr0, hsrc, hcont, hrw1, hrw2, hdlen, heofp, hnep⟩ := hmid
  obtain ⟨hne1, hne2⟩ := hnep (by simp)
  obtain ⟨henc1, henc2, hiff, hinj⟩ := hA
  cases rest with
  | nil => exact absurd rfl hrest
  | cons q rs =>
  have hsrc2 : r.src = encChunk A ⟨r.pfx, c, 0⟩ r.ad p ++
      encChunksF A r.pfx r.ad (c + 1) (q :: rs) := by
    rw [hsrc]
    rfl
  have he1 : ((A.enc ⟨r.pfx, c, 0⟩ r.ad p).1).length = C := by
    rw [henc1, hp]
  have hecl : (encChunk A ⟨r.pfx, c, 0⟩ r.ad p).length = C + A.tagSize := by
    rw [encChunk, List.length_append, he1, henc2]
  have hfull : C + A.tagSize ≤ r.src.length := by
    rw [hsrc2, List.length_append, hecl]
    omega
  have hempty : bufLen r.buf = 0 := by
    have hlen := bufContents_length r.buf hrw1 hrw2
    rw [hcont, List.length_nil] at hlen
    simp only [bufLen]
    omega
  have hstep := doRead_refill_eq A C r d hC hempty hne1 hd
  rw [doReadChunk_full A C r d hfull] at hstep
  have htkN : r.src.take (C + A.tagSize) =
      encChunk A ⟨r.pfx, c, 0⟩ r.ad p := by
    rw [hsrc2]
    exact take_append_len _ _ _ hecl
  have hdropN : r.src.drop (C + A.tagSize) =
      encChunksF A r.pfx r.ad (c + 1) (q :: rs) := by
    rw [hsrc2]
    exact drop_append_len _ _ _ hecl
  have hctC : (r.src.take (C + A.tagSize)).take C =
      (A.enc ⟨r.pfx, c, 0⟩ r.ad p).1 := by
    rw [htkN, encChunk]
    exact take_append_len _ _ _ he1
  have htgC : (r.src.take (C + A.tagSize)).drop C =
      (A.enc ⟨r.pfx, c, 0⟩ r.ad p).2 := by
    rw [htkN, encChunk]
    exact drop_append_len _ _ _ he1
  have hdec : A.dec ⟨r.pfx, r.ctr, r.eofB⟩ r.ad
      ((r.src.take (C + A.tagSize)).take C)
      ((r.src.take (C + A.tagSize)).drop C) = some p := by
    rw [hctC, htgC, hctr0, hne2]
    exact (hiff _ _ _ _ _).mpr Prod.mk.eta.symm
  rw [hdec] at hstep
  dsimp only at hstep
  have hb3d : (r.src.take (C + A.tagSize) ++
      r.buf.data.drop (C + A.tagSize)).length = C + A.tagSize := by
    rw [List.length_append, List.length_take, List.length_drop, hdlen]
    omega
  have hrf := readFinish_ok A r (r.src.drop (C + A.tagSize))
    ⟨r.src.take (C + A.tagSize) ++ r.buf.data.drop (C + A.tagSize), 0,
      C + A.tagSize⟩ (C + A.tagSize) false r.eofB p d rfl
    (by omega) (by dsimp only; rw [hb3d]; omega)
    (Or.inr (by rw [hctr0]; exact hcmax))
  obtain ⟨hc1, hc2, hc3, hc4, hc5, hc6, hc7, hc8, hc9, hc10, hc11, hc12⟩ :=
    hrf
  have hpair : readFinish A r (r.src.drop (C + A.tagSize))
      ⟨r.src.take (C + A.tagSize) ++ r.buf.data.drop (C + A.tagSize), 0,
        C + A.tagSize⟩ (C + A.tagSize) false r.eofB p d =
      ((readFinish A r (r.src.drop (C + A.tagSize))
      ⟨r.src.take (C + A.tagSize) ++ r.buf.data.drop (C + A.tagSize), 0,
        C + A.tagSize⟩ (C + A.tagSize) false r.eofB p d).1,
        .ok (p.take (min p.length d))) := by
    rw [← hc1]
  refine ⟨_, by rw [hstep, hpair], ?_, hc8, by omega⟩
  refine ⟨?_, ?_, hc9, hc10, ?_, ?_, ?_, ?_⟩
  · rw [hc5, hctr0]
    simp
  · rw [hc2, hc6, hc7, hdropN]
  · exact hc11
  · rw [hc12]
    dsimp only
    exact hb3d
  · intro h
    exact absurd h (List.cons_ne_nil q rs)
  · intro _
    refine ⟨hc3, ?_⟩
    rw [hc4, hne2]

theorem doRead_final (A : AeadAlg) (hA : AeadOk A) (C : Nat) (hC : 0 < C)
    (r : RState) (d : Nat) (c : Nat) (p : List Nat)
    (hd : 0 < d) (hmid : RMid A C r c [] [p])
    (hple : p.length ≤ C) (hverfull : p.length = C → r.ver = .One) :
    ∃ r1, doRead A C r d = some (r1, .ok (p.take (min p.length d))) ∧
      RMid A C r1 c (p.drop (min p.length d)) [] ∧ r1.ver = r.ver := by
  obtain ⟨hctr0, hsrc, hcont, hrw1, hrw2, hdlen, heofp, hnep⟩ := hmid
  obtain ⟨hne1, hne2⟩ := hnep (by simp)
  obtain ⟨henc1, henc2, hiff, hinj⟩ := hA
  have hsrc2 : r.src = encChunk A ⟨r.pfx, c, 1⟩ r.ad p := by
    rw [hsrc]
    rfl
  have he1 : ((A.enc ⟨r.pfx, c, 1⟩ r.ad p).1).length = p.length :=
    henc1 _ _ _
  have hecl : (encChunk A ⟨r.pfx, c, 1⟩ r.ad p).length =
      p.length + A.tagSize := by
    rw [encChunk, List.length_append, he1, henc2]
  have hsl : r.src.length = p.length + A.tagSize := by
    rw [hsrc2, hecl]
  have hempty : bufLen r.buf = 0 := by
    have hlen := bufContents_length r.buf hrw1 hrw2
    rw [hcont, List.length_nil] at hlen
    simp only [bufLen]
    omega
  have hstep := doRead_refill_eq A C r d hC hempty hne1 hd
  by_cases hpfull : p.length = C
  · -- full final chunk: the first attempt fails, the version-1 retry hits
    have hver1 : r.ver = .One := hverfull hpfull
    have hfull : C + A.tagSize ≤ r.src.length := by
      rw [hsl, hpfull]
    rw [doReadChunk_full A C r d hfull] at hstep
    have htkN : r.src.take (C + A.tagSize) =
        encChunk A ⟨r.pfx, c, 1⟩ r.ad p := by
      rw [hsrc2, List.take_of_length_le (by rw [hecl, hpfull])]
    have hctC : (r.src.take (C + A.tagSize)).take C =
        (A.enc ⟨r.pfx, c, 1⟩ r.ad p).1 := by
      rw [htkN, encChunk]
      exact take_append_len _ _ _ (by rw [he1, hpfull])
    have htgC : (r.src.take (C + A.tagSize)).drop C =
        (A.enc ⟨r.pfx, c, 1⟩ r.ad p).2 := by
      rw [htkN, encChunk]
      exact drop_append_len _ _ _ (by rw [he1, hpfull])
    have hdec0 : A.dec ⟨r.pfx, r.ctr, r.eofB⟩ r.ad
        ((r.src.take (C + A.tagSize)).take C)
        ((r.src.take (C + A.tagSize)).drop C) = none := by
      cases hd0 : A.dec ⟨r.pfx, r.ctr, r.eofB⟩ r.ad
          ((r.src.take (C + A.tagSize)).take C)
          ((r.src.take (C + A.tagSize)).drop C) with
      | none => rfl
      | some ptq =>
        exfalso
        have henceq := (hiff _ _ _ _ _).mp hd0
        rw [hctC, htgC] at henceq
        have h2 : A.enc ⟨r.pfx, r.ctr, r.eofB⟩ r.ad ptq =
            A.enc ⟨r.pfx, c, 1⟩ r.ad p := by
          rw [henceq]
        obtain ⟨hnn, _⟩ := hinj _ _ _ _ _ h2
        have heq := congrArg NonceV.eofB hnn
        dsimp only at heq
        rw [hne2] at heq
        exact one_ne_zero heq.symm
    rw [hdec0] at hstep
    dsimp only at hstep
    rw [if_pos hver1] at hstep
    have hdec1 : A.dec ⟨r.pfx, r.ctr, 1⟩ r.ad
        ((r.src.take (C + A.tagSize)).take C)
        ((r.src.take (C + A.tagSize)).drop C) = some p := by
      rw [hctC, htgC, hctr0]
      exact (hiff _ _ _ _ _).mpr Prod.mk.eta.symm
    rw [hdec1] at hstep
    dsimp only at hstep
    have hb3d : (r.src.take (C + A.tagSize) ++
        r.buf.data.drop (C + A.tagSize)).length = C + A.tagSize := by
      rw [List.length_append, List.length_take, List.length_drop, hdlen]
      omega
    have hrf := readFinish_ok A r (r.src.drop (C + A.tagSize))
      ⟨r.src.take (C + A.tagSize) ++ r.buf.data.drop (C + A.tagSize), 0,
        C + A.tagSize⟩ (C + A.tagSize) true 1 p d rfl
      (by omega) (by dsimp only; rw [hb3d]; omega) (Or.inl rfl)
    obtain ⟨hc1, hc2, hc3, hc4, hc5, hc6, hc7, hc8, hc9, hc10, hc11, hc12⟩ :=
      hrf
    have hdropN : r.src.drop (C + A.tagSize) = [] :=
      List.drop_eq_nil_of_le (by rw [hsl, hpfull])
    have hpair : readFinish A r (r.src.drop (C + A.tagSize))
        ⟨r.src.take (C + A.tagSize) ++ r.buf.data.drop (C + A.tagSize), 0,
          C + A.tagSize⟩ (C + A.tagSize) true 1 p d =
        ((readFinish A r (r.src.drop (C + A.tagSize))
        ⟨r.src.take (C + A.tagSize) ++ r.buf.data.drop (C + A.tagSize), 0,
          C + A.tagSize⟩ (C + A.tagSize) true 1 p d).1,
          .ok (p.take (min p.length d))) := by
      rw [← hc1]
    refine ⟨_, by rw [hstep, hpair], ?_, hc8⟩
    refine ⟨?_, ?_, hc9, hc10, hc11, ?_, ?_, ?_⟩
    · rw [hc5]
      simp [hctr0]
    · rw [hc2, hdropN]
      rfl
    · rw [hc12]
      dsimp only
      exact hb3d
    · intro _
      exact hc3
    · intro h
      exact absurd rfl h
  · -- short final chunk: read past EOF, decrypt with the EOF nonce
    have hT : A.tagSize ≤ r.src.length := by
      rw [hsl]
      omega
    have hshort : r.src.length < C + A.tagSize := by
      rw [hsl]
      omega
    rw [doReadChunk_short A C r d hT hshort] at hstep
    have hctC : r.src.take (r.src.length - A.tagSize) =
        (A.enc ⟨r.pfx, c, 1⟩ r.ad p).1 := by
      conv_lhs => rw [hsrc2, encChunk]
      exact take_append_len _ _ _ (by rw [List.length_append, he1, henc2]; omega)
    have htgC : r.src.drop (r.src.length - A.tagSize) =
        (A.enc ⟨r.pfx, c, 1⟩ r.ad p).2 := by
      conv_lhs => rw [hsrc2, encChunk]
      exact drop_append_len _ _ _ (by rw [List.length_append, he1, henc2]; omega)
    have hdecS : A.dec ⟨r.pfx, r.ctr, 1⟩ r.ad
        (r.src.take (r.src.length - A.tagSize))
        (r.src.drop (r.src.length - A.tagSize)) = some p := by
      rw [hctC, htgC, hctr0]
      exact (hiff _ _ _ _ _).mpr Prod.mk.eta.symm
    rw [hdecS] at hstep
    dsimp only at hstep
    have hb3d : (r.src ++ r.buf.data.drop r.src.length).length =
        C + A.tagSize := by
      rw [List.length_append, List.length_drop, hdlen]
      omega
    have hrf := readFinish_ok A r []
      ⟨r.src ++ r.buf.data.drop r.src.length, 0, r.src.length⟩
      r.src.length true 1 p d rfl (by omega)
      (by dsimp only; rw [hb3d]; omega) (Or.inl rfl)
    obtain ⟨hc1, hc2, hc3, hc4, hc5, hc6, hc7, hc8, hc9, hc10, hc11, hc12⟩ :=
      hrf
    have hpair : readFinish A r []
        ⟨r.src ++ r.buf.data.drop r.src.length, 0, r.src.length⟩
        r.src.length true 1 p d =
        ((readFinish A r []
        ⟨r.src ++ r.buf.data.drop r.src.length, 0, r.src.length⟩
        r.src.length true 1 p d).1, .ok (p.take (min p.length d))) := by
      rw [← hc1]
    refine ⟨_, by rw [hstep, hpair], ?_, hc8⟩
    refine ⟨?_, ?_, hc9, hc10, hc11, ?_, ?_, ?_⟩
    · rw [hc5]
      simp [hctr0]
    · rw [hc2]
      rfl
    · rw [hc12]
      dsimp only
      exact hb3d
    · intro _
      exact hc3
    · intro h
      exact absurd rfl h

theorem drain_spec (A : AeadAlg) (hA : AeadOk A) (C : Nat) (hC : 0 < C)
    (d : Nat) (hd : 0 < d) :
    ∀ (fuel : Nat) (pts : List (List Nat)) (rem : List Nat) (r : RState)
      (c : Nat),
      RMid A C r c rem pts →
      (∀ p ∈ pts.dropLast, p.length = C) →
      (∀ p, pts.getLast? = some p → p.length ≤ C) →
      (∀ p, pts.getLast? = some p → p.length = C → r.ver = .One) →
      c + pts.length ≤ u32Max + 1 →
      rem.length + (List.join pts).length + pts.length + 2 ≤ fuel →
      ∃ rf, drain A C fuel r d = some (rem ++ List.join pts, rf) := by
  intro fuel
  induction fuel with
  | zero =>
    intro pts rem r c _ _ _ _ _ hf
    omega
  | succ fuel ih =>
    intro pts rem r c hmid hnf hlastle hlastver hctrb hf
    by_cases hrem : rem = []
    · subst hrem
      cases pts with
      | nil =>
        obtain ⟨hctr0, hsrc, hcont, hrw1, hrw2, hdlen, heofp, hnep⟩ := hmid
        rw [drain, doRead_eofstop A C r d hcont (heofp rfl)]
        dsimp only
        rw [if_pos rfl]
        exact ⟨{ r with buf := (bufRead r.buf d).2 }, by simp⟩
      | cons p rest =>
        cases rest with
        | nil =>
          obtain ⟨r1, hread, hmid1, hver1⟩ := doRead_final A hA C hC r d c p
            hd hmid (hlastle p (by simp)) (hlastver p (by simp))
          rw [drain, hread]
          dsimp only
          by_cases hbs : p.take (min p.length d) = []
          · rw [if_pos hbs]
            have hp0 : p = [] := by
              cases hp : p with
              | nil => rfl
              | cons a t =>
                exfalso
                rw [hp] at hbs
                have h2 := congrArg List.length hbs
                rw [List.length_take, List.length_nil] at h2
                simp only [List.length_cons] at h2
                omega
            refine ⟨r1, ?_⟩
            rw [hp0]
            simp
          · rw [if_neg hbs]
            have hjpl : (List.join [p]).length = p.length := by simp
            have hrec := ih [] (p.drop (min p.length d)) r1 c hmid1
              (by simp)
              (by intro x hx; simp at hx)
              (by intro x hx; simp at hx)
              (by simp only [List.length_nil]; omega)
              (by
                rw [List.length_drop]
                rw [hjpl] at hf
                simp only [List.length_nil, List.length_cons] at hf ⊢
                have hj0 : (List.join ([] : List (List Nat))).length = 0 :=
                  rfl
                rw [hj0]
                omega)
            obtain ⟨rf, hrec2⟩ := hrec
            rw [hrec2]
            refine ⟨rf, ?_⟩
            show some (p.take (min p.length d) ++
              (p.drop (min p.length d) ++ List.join []), rf) =
              some ([] ++ List.join [p], rf)
            rw [← List.append_assoc, List.take_append_drop]
            simp
        | cons q rs =>
          have hpC : p.length = C := hnf p (by simp)
          have hcmax : c ≠ u32Max := by
            simp only [List.length_cons] at hctrb
            omega
          obtain ⟨r1, hread, hmid1, hver1, hk1⟩ := doRead_nonfinal A hA C hC
            r d c p (q :: rs) hd hmid (by simp) hpC hcmax
          rw [drain, hread]
          dsimp only
          have hbs : p.take (min p.length d) ≠ [] := by
            intro h
            have h2 := congrArg List.length h
            rw [List.length_take, List.length_nil] at h2
            omega
          rw [if_neg hbs]
          have hjoin : List.join (p :: q :: rs) = p ++ List.join (q :: rs) :=
            rfl
          have hrec := ih (q :: rs) (p.drop (min p.length d)) r1 (c + 1)
            hmid1
            (by
              intro x hx
              apply hnf
              rw [List.dropLast_cons₂]
              exact List.mem_cons_of_mem _ hx)
            (by
              intro x hx
              exact hlastle x (by rw [List.getLast?_cons_cons]; exact hx))
            (by
              intro x hx hxc
              rw [hver1]
              exact hlastver x (by rw [List.getLast?_cons_cons]; exact hx)
                hxc)
            (by simp only [List.length_cons] at hctrb ⊢; omega)
            (by
              rw [List.length_drop]
              rw [hjoin, List.length_append] at hf
              simp only [List.length_cons] at hf ⊢
              omega)
          obtain ⟨rf, hrec2⟩ := hrec
          rw [hrec2]
          refine ⟨rf, ?_⟩
          show some (p.take (min p.length d) ++
            (p.drop (min p.length d) ++ List.join (q :: rs)), rf) =
            some ([] ++ List.join (p :: q :: rs), rf)
          rw [← List.append_assoc, List.take_append_drop, List.nil_append,
            hjoin]
    · obtain ⟨hread, hmid1, hk1⟩ := doRead_serve_mid A C r d c rem pts hd
        hmid hrem
      rw [drain, hread]
      dsimp only
      have hbs : rem.take (min rem.length d) ≠ [] := by
        intro h
        have h2 := congrArg List.length h
        rw [List.length_take, List.length_nil] at h2
        omega
      rw [if_neg hbs]
      have hrec := ih pts (rem.drop (min rem.length d))
        { r with buf := (bufRead r.buf d).2 } c hmid1 hnf hlastle hlastver
        hctrb
        (by
          rw [List.length_drop]
          omega)
      obtain ⟨rf, hrec2⟩ := hrec
      rw [hrec2]
      refine ⟨rf, ?_⟩
      show some (rem.take (min rem.length d) ++
        (rem.drop (min rem.length d) ++ List.join pts), rf) =
        some (rem ++ List.join pts, rf)
      rw [← List.append_assoc, List.take_append_drop]

theorem encChunksF_snoc (A : AeadAlg) (pfxv ad : List Nat) :
    ∀ (l : List (List Nat)) (p : List Nat) (c : Nat),
      encChunksF A pfxv ad c (l ++ [p]) =
        encNF A pfxv ad c l ++ encChunk A ⟨pfxv, c + l.length, 1⟩ ad p := by
  intro l
  induction l with
  | nil =>
    intro p c
    simp [encChunksF, encNF]
  | cons q qs ih =>
    intro p c
    cases hq : qs ++ [p] with
    | nil => exact absurd hq (by simp)
    | cons x xs =>
      rw [List.cons_append, hq, encChunksF_cons2, ← hq, ih p (c + 1),
        encNF, List.append_assoc, List.length_cons,
        show c + 1 + qs.length = c + (qs.length + 1) from by omega]

theorem wInit_clean (C : Nat) (ver : Version) (ad salt pfxv : List Nat) :
    WClean C (wInit C ver ad salt pfxv) := by
  refine ⟨rfl, ?_, ?_, rfl, ?_⟩
  · show (0 : Nat) ≤ C
    omega
  · show (List.replicate C 0).length = C
    exact List.length_replicate C 0
  · show (0 : Nat) ≤ u32Max
    omega

theorem writerRun_char (A : AeadAlg) (hA : AeadOk A) (C : Nat) (hC : 0 < C)
    (ver : Version) (ad salt pfxv : List Nat) (splits : List (List Nat)) :
    (takeCount ver C (List.join splits).length / C ≤ u32Max →
      ∃ w, writerRun A C ver ad salt pfxv splits = some (w, .ok ()) ∧
        w.out = (Version.toBytes ver ++ salt ++ pfxv) ++
          encChunksF A pfxv ad 0 (streamPts ver C (List.join splits)) ∧
        w.nonces = (List.range
            (takeCount ver C (List.join splits).length / C)).map
            (fun i => ⟨pfxv, i, 0⟩) ++
          [⟨pfxv, takeCount ver C (List.join splits).length / C, 1⟩]) ∧
    (¬ (takeCount ver C (List.join splits).length / C ≤ u32Max) →
      ∃ w, writerRun A C ver ad salt pfxv splits =
        some (w, .error .CounterOverflow)) := by
  have hv2i : (wInit C ver ad salt pfxv).ver = .Two →
      (wInit C ver ad salt pfxv).buf.write < C := fun _ => hC
  have hrw := runWrites_char A hA C hC splits (wInit C ver ad salt pfxv)
    (wInit_clean C ver ad salt pfxv) hv2i
  have hbc : bufContents (wInit C ver ad salt pfxv).buf = [] := by
    show bufContents (bufNew C) = []
    exact bufContents_bufNew C
  rw [hbc, List.nil_append] at hrw
  simp only [wInit] at hrw
  constructor
  · intro hcon
    obtain ⟨w', hrun', hout', hctr', hnonce', hcont', hwcl', hv2', hpfx',
      had', hver'⟩ := hrw.1 (by simpa using hcon)
    have hfl := flushInternal_char A hA C w' hwcl' true (Or.inl rfl)
    obtain ⟨w2, m, hfl2, hout2, hctr2, heofB2, hnonce2, hpfx2, had2, hver2,
      hr2, hw2, hd2⟩ := hfl
    refine ⟨w2, ?_, ?_, ?_⟩
    · rw [writerRun]
      simp only [wInit]
      rw [hrun']
      dsimp only
      rw [doFlush, hfl2]
      rfl
    · rw [hout2, hout', hpfx', had', hcont', hctr']
      simp only [if_true, Nat.zero_add]
      rw [streamPts, encChunksF_snoc]
      have hlenx : (exactChunks C ((List.join splits).take
          (takeCount ver C (List.join splits).length))).length =
          takeCount ver C (List.join splits).length / C := by
        obtain ⟨hl, _, _⟩ := exactChunks_full C hC
          (takeCount ver C (List.join splits).length / C) _
          (by
            rw [List.length_take,
              min_eq_left (takeCount_le ver C (List.join splits).length)]
            exact (takeCount_div_mul ver C (List.join splits).length hC).symm)
        exact hl
      rw [hlenx, List.append_assoc, Nat.zero_add]
    · rw [hnonce2, hnonce', hpfx', hctr']
      simp only [if_true, Nat.zero_add, List.nil_append]
  · intro hcon
    obtain ⟨w', hrun'⟩ := hrw.2 (by simpa using hcon)
    refine ⟨w', ?_⟩
    rw [writerRun]
    simp only [wInit]
    rw [hrun']

theorem except_bind_ok {e a b : Type} (x : a) (f : a → Except e b) :
    (Except.ok x >>= f) = f x := rfl

theorem rInit_header (A : AeadAlg) (C : Nat) (ver : Version)
    (salt pfxv body ad : List Nat) (hsalt : salt.length = 32)
    (hpfx : pfxv.length = A.nonceSize - 5) :
    rInit A C ((Version.toBytes ver ++ salt ++ pfxv) ++ body) ad =
      .ok { src := body, ctr := 0, eofB := 0, buf := bufNew (C + A.tagSize),
            eof := false, pfx := pfxv, ad := ad, ver := ver } := by
  have htb : (Version.toBytes ver).length = 4 := by
    cases ver <;> rfl
  have hs : (Version.toBytes ver ++ salt ++ pfxv) ++ body =
      Version.toBytes ver ++ (salt ++ (pfxv ++ body)) := by
    simp [List.append_assoc]
  rw [rInit, hs]
  have h1 : readExact (Version.toBytes ver ++ (salt ++ (pfxv ++ body))) 4 =
      .ok (Version.toBytes ver, salt ++ (pfxv ++ body)) := by
    rw [readExact, if_pos (by rw [List.length_append, htb]; omega),
      take_append_len _ _ _ htb, drop_append_len _ _ _ htb]
  rw [h1, except_bind_ok]
  dsimp only
  have hv : versionTryFrom (u32ofBE (Version.toBytes ver)) = .ok ver := by
    cases ver <;> rfl
  rw [hv, except_bind_ok]
  have h2 : readExact (salt ++ (pfxv ++ body)) 32 =
      .ok (salt, pfxv ++ body) := by
    rw [readExact, if_pos (by rw [List.length_append, hsalt]; omega),
      take_append_len _ _ _ hsalt, drop_append_len _ _ _ hsalt]
  rw [h2, except_bind_ok]
  dsimp only
  have h3 : readExact (pfxv ++ body) (A.nonceSize - 5) =
      .ok (pfxv, body) := by
    rw [readExact, if_pos (by rw [List.length_append, hpfx]; omega),
      take_append_len _ _ _ hpfx, drop_append_len _ _ _ hpfx]
  rw [h3, except_bind_ok]
  rfl

theorem takeCount_take_length (ver : Version) (C : Nat) (hC : 0 < C)
    (P : List Nat) :
    (P.take (takeCount ver C P.length)).length =
      takeCount ver C P.length / C * C := by
  rw [List.length_take, min_eq_left (takeCount_le ver C P.length)]
  exact (takeCount_div_mul ver C P.length hC).symm

theorem streamPts_join (ver : Version) (C : Nat) (hC : 0 < C)
    (P : List Nat) : List.join (streamPts ver C P) = P := by
  rw [streamPts]
  show (exactChunks C (List.take (takeCount ver C P.length) P) ++
    [List.drop (takeCount ver C P.length) P]).flatten = P
  rw [List.flatten_append,
    show (exactChunks C (List.take (takeCount ver C P.length) P)).flatten =
      List.take (takeCount ver C P.length) P from
      (exactChunks_full C hC (takeCount ver C P.length / C) _
        (takeCount_take_length ver C hC P)).2.2]
  simp [List.take_append_drop]

theorem streamPts_length (ver : Version) (C : Nat) (hC : 0 < C)
    (P : List Nat) :
    (streamPts ver C P).length = takeCount ver C P.length / C + 1 := by
  rw [streamPts, List.length_append,
    (exactChunks_full C hC (takeCount ver C P.length / C) _
      (takeCount_take_length ver C hC P)).1]
  rfl

theorem remLen_le (ver : Version) (C n : Nat) (hC : 0 < C) :
    n - takeCount ver C n ≤ C := by
  cases ver with
  | Two =>
    simp only [takeCount]
    have h := Nat.div_add_mod n C
    have h2 : n % C < C := Nat.mod_lt _ hC
    have h0 : C * (n / C) = n / C * C := Nat.mul_comm _ _
    omega
  | One =>
    by_cases hn : n = 0
    · subst hn
      simp [takeCount]
    · simp only [takeCount, lastLen, if_neg hn]
      have h2 : (n - 1) % C < C := Nat.mod_lt _ hC
      have h3 : (n - 1) % C ≤ n - 1 := Nat.mod_le _ _
      omega

theorem remLen_lt_two (C n : Nat) (hC : 0 < C) :
    n - takeCount .Two C n < C := by
  simp only [takeCount]
  have h := Nat.div_add_mod n C
  have h2 : n % C < C := Nat.mod_lt _ hC
  have h0 : C * (n / C) = n / C * C := Nat.mul_comm _ _
  omega

theorem encNF_length (A : AeadAlg) (hA : AeadOk A) (pfxv ad : List Nat) :
    ∀ (ps : List (List Nat)) (c : Nat),
      (encNF A pfxv ad c ps).length =
        (List.join ps).length + ps.length * A.tagSize := by
  obtain ⟨h1, h2, _, _⟩ := hA
  intro ps
  induction ps with
  | nil =>
    intro c
    simp [encNF]
  | cons p l ih =>
    intro c
    show (encChunk A ⟨pfxv, c, 0⟩ ad p ++ encNF A pfxv ad (c + 1) l).length =
      (List.join (p :: l)).length + (p :: l).length * A.tagSize
    rw [List.length_append, encChunk, List.length_append, h1, h2,
      ih (c + 1),
      show List.join (p :: l) = p ++ List.join l from rfl,
      List.length_append, List.length_cons, Nat.succ_mul]
    omega

theorem writerOut_char (A : AeadAlg) (hA : AeadOk A) (C : Nat) (hC : 0 < C)
    (ver : Version) (ad salt pfxv : List Nat) (splits : List (List Nat))
    (out : List Nat)
    (hout : writerOut A C ver ad salt pfxv splits = some out) :
    takeCount ver C (List.join splits).length / C ≤ u32Max ∧
    out = (Version.toBytes ver ++ salt ++ pfxv) ++
      encChunksF A pfxv ad 0 (streamPts ver C (List.join splits)) := by
  by_cases hcond : takeCount ver C (List.join splits).length / C ≤ u32Max
  · obtain ⟨w, hrun, hwout, hnon⟩ := (writerRun_char A hA C hC ver ad salt
      pfxv splits).1 hcond
    rw [writerOut, hrun] at hout
    dsimp only at hout
    injection hout with h
    refine ⟨hcond, ?_⟩
    rw [← h, hwout]
  · obtain ⟨w, hrun⟩ := (writerRun_char A hA C hC ver ad salt
      pfxv splits).2 hcond
    rw [writerOut, hrun] at hout
    dsimp only at hout
    cases hout

theorem writerNonces_char (A : AeadAlg) (hA : AeadOk A) (C : Nat)
    (hC : 0 < C) (ver : Version) (ad salt pfxv : List Nat)
    (splits : List (List Nat)) (ns : List NonceV)
    (hns : writerNonces A C ver ad salt pfxv splits = some ns) :
    ns = (List.range (takeCount ver C (List.join splits).length / C)).map
        (fun i => ⟨pfxv, i, 0⟩) ++
      [⟨pfxv, takeCount ver C (List.join splits).length / C, 1⟩] := by
  by_cases hcond : takeCount ver C (List.join splits).length / C ≤ u32Max
  · obtain ⟨w, hrun, hwout, hnon⟩ := (writerRun_char A hA C hC ver ad salt
      pfxv splits).1 hcond
    rw [writerNonces, hrun] at hns
    dsimp only at hns
    injection hns with h
    rw [← h, hnon]
  · obtain ⟨w, hrun⟩ := (writerRun_char A hA C hC ver ad salt
      pfxv splits).2 hcond
    rw [writerNonces, hrun] at hns
    dsimp only at hns
    cases hns

/-- C1: round-trip.  For every AEAD satisfying the §6 contract, version,
chunk size `C ≥ 1`, associated data, salt, nonce prefix and any split of
the plaintext into `write` calls, if the writer lifecycle (new, writes,
flush) succeeds with output `out`, then a reader over `out` with the same
parameters parses the header and, reading with any non-empty destination,
delivers exactly the original plaintext followed by a clean EOF (a read
delivering 0 bytes, at which `drain` stops). -/
theorem C1_round_trip (A : AeadAlg) (hA : AeadOk A) (C : Nat) (hC : 0 < C)
    (d : Nat) (hd : 0 < d) (ver : Version) (ad salt pfxv : List Nat)
    (splits : List (List Nat)) (out : List Nat)
    (hsalt : salt.length = 32) (hpfx : pfxv.length = A.nonceSize - 5)
    (hout : writerOut A C ver ad salt pfxv splits = some out) :
    ∃ r0 rf, rInit A C out ad = .ok r0 ∧
      drain A C (2 * (List.join splits).length + 3) r0 d =
        some (List.join splits, rf) := by
  obtain ⟨hcond, houteq⟩ := writerOut_char A hA C hC ver ad salt pfxv
    splits out hout
  subst houteq
  have hr0 := rInit_header A C ver salt pfxv
    (encChunksF A pfxv ad 0 (streamPts ver C (List.join splits))) ad
    hsalt hpfx
  have hmid0 : RMid A C
      { src := encChunksF A pfxv ad 0 (streamPts ver C (List.join splits)),
        ctr := 0, eofB := 0, buf := bufNew (C + A.tagSize), eof := false,
        pfx := pfxv, ad := ad, ver := ver } 0 []
      (streamPts ver C (List.join splits)) := by
    refine ⟨rfl, rfl, bufContents_bufNew _, Nat.le_refl _, Nat.zero_le _,
      ?_, ?_, fun _ => ⟨rfl, rfl⟩⟩
    · show (List.replicate (C + A.tagSize) 0).length = C + A.tagSize
      exact List.length_replicate _ _
    · intro h
      exact absurd h (by simp [streamPts])
  have hchunks := exactChunks_full C hC
    (takeCount ver C (List.join splits).length / C) _
    (takeCount_take_length ver C hC (List.join splits))
  have hnf : ∀ p ∈ (streamPts ver C (List.join splits)).dropLast,
      p.length = C := by
    intro p hp
    rw [streamPts, List.dropLast_concat] at hp
    exact hchunks.2.1 p hp
  have hlastle : ∀ p,
      (streamPts ver C (List.join splits)).getLast? = some p →
      p.length ≤ C := by
    intro p hp
    rw [streamPts, List.getLast?_concat] at hp
    injection hp with hp2
    rw [← hp2, List.length_drop]
    exact remLen_le ver C _ hC
  have hlastver : ∀ p,
      (streamPts ver C (List.join splits)).getLast? = some p →
      p.length = C →
      ({ src := encChunksF A pfxv ad 0 (streamPts ver C (List.join splits)),
         ctr := 0, eofB := 0, buf := bufNew (C + A.tagSize), eof := false,
         pfx := pfxv, ad := ad, ver := ver } : RState).ver = .One := by
    intro p hp hpC
    rw [streamPts, List.getLast?_concat] at hp
    injection hp with hp2
    rw [← hp2, List.length_drop] at hpC
    show ver = .One
    cases hver : ver with
    | One => rfl
    | Two =>
      exfalso
      rw [hver] at hpC
      have := remLen_lt_two C (List.join splits).length hC
      omega
  have hlen1 : takeCount ver C (List.join splits).length / C ≤
      takeCount ver C (List.join splits).length := Nat.div_le_self _ _
  have hlen2 := takeCount_le ver C (List.join splits).length
  have hfuel : ([] : List Nat).length +
      (List.join (streamPts ver C (List.join splits))).length +
      (streamPts ver C (List.join splits)).length + 2 ≤
      2 * (List.join splits).length + 3 := by
    rw [List.length_nil, streamPts_join ver C hC,
      streamPts_length ver C hC]
    omega
  obtain ⟨rf, hdr⟩ := drain_spec A hA C hC d hd
    (2 * (List.join splits).length + 3)
    (streamPts ver C (List.join splits)) []
    { src := encChunksF A pfxv ad 0 (streamPts ver C (List.join splits)),
      ctr := 0, eofB := 0, buf := bufNew (C + A.tagSize), eof := false,
      pfx := pfxv, ad := ad, ver := ver } 0 hmid0 hnf hlastle hlastver
    (by rw [streamPts_length ver C hC]; omega) hfuel
  rw [List.nil_append, streamPts_join ver C hC] at hdr
  exact ⟨_, rf, hr0, hdr⟩

theorem C1_witness :
    ∃ out, writerOut mockAead 2 .Two [] (List.replicate 32 0) []
        [[1, 2, 3]] = some out ∧
      ∃ r0 rf, rInit mockAead 2 out [] = .ok r0 ∧
        drain mockAead 2 (2 * (List.join [[1, 2, 3]]).length + 3) r0 8 =
          some (List.join [[1, 2, 3]], rf) :=
  ⟨(writerOut mockAead 2 .Two [] (List.replicate 32 0) []
      [[1, 2, 3]]).get (by decide),
   (Option.some_get _).symm,
   C1_round_trip mockAead mockAead_ok 2 (by decide) 8 (by decide) .Two []
     (List.replicate 32 0) [] [[1, 2, 3]] _ (by decide) (by decide)
     (Option.some_get _).symm⟩

theorem WriterSize_eq (A : AeadAlg) (ver : Version) (C n : Nat)
    (hC : 0 < C) :
    WriterSize A C n ver +
      (if ver = .One ∧ n = 0 then A.tagSize else 0) =
      4 + 32 + (A.nonceSize - 5) + n +
        (takeCount ver C n / C + 1) * A.tagSize := by
  simp only [WriterSize, takeCount]
  have hmod := Nat.div_add_mod n C
  cases ver with
  | Two =>
    rw [if_neg (show ¬ (Version.Two = Version.One ∧ n = 0) from
      fun h => Version.noConfusion h.1), Nat.add_zero,
      Nat.mul_div_cancel _ hC]
    by_cases hz : n % C = 0
    · have hdiv : (n + C - 1) / C = n / C := by
        have hn2 : n + C - 1 = C * (n / C) + (C - 1) := by omega
        rw [hn2, Nat.mul_add_div hC,
          Nat.div_eq_of_lt (by omega : C - 1 < C), Nat.add_zero]
      rw [if_pos hz, hdiv]
    · have hlt : n % C < C := Nat.mod_lt _ hC
      have hdiv : (n + C - 1) / C = n / C + 1 := by
        have h3 : C * (n / C + 1) = C * (n / C) + C := by
          rw [Nat.mul_add, Nat.mul_one]
        have hn2 : n + C - 1 = C * (n / C + 1) + (n % C - 1) := by omega
        rw [hn2, Nat.mul_add_div hC,
          Nat.div_eq_of_lt (by omega : n % C - 1 < C), Nat.add_zero]
      rw [if_neg hz, hdiv]
      dsimp only
  | One =>
    by_cases hz : n = 0
    · subst hz
      rw [if_pos (show Version.One = Version.One ∧ (0 : Nat) = 0 from
        ⟨rfl, rfl⟩)]
      have hll : lastLen C 0 = 0 := rfl
      rw [hll]
      have hdiv : (0 + C - 1) / C = 0 :=
        Nat.div_eq_of_lt (by omega : 0 + C - 1 < C)
      rw [hdiv]
      have h00 : (0 - 0) / C = 0 := by
        rw [Nat.sub_self, Nat.zero_div]
      rw [h00]
      dsimp only
      omega
    · rw [if_neg (show ¬ (Version.One = Version.One ∧ n = 0) from
        fun h => hz h.2), Nat.add_zero]
      have hmod1 := Nat.div_add_mod (n - 1) C
      have hlt : (n - 1) % C < C := Nat.mod_lt _ hC
      have htc1 : n - lastLen C n = C * ((n - 1) / C) := by
        simp only [lastLen, if_neg hz]
        omega
      rw [htc1, Nat.mul_div_cancel_left _ hC]
      have hdiv : (n + C - 1) / C = (n - 1) / C + 1 := by
        have h3 : C * ((n - 1) / C + 1) = C * ((n - 1) / C) + C := by
          rw [Nat.mul_add, Nat.mul_one]
        have hn2 : n + C - 1 = C * ((n - 1) / C + 1) + (n - 1) % C := by
          omega
        rw [hn2, Nat.mul_add_div hC, Nat.div_eq_of_lt hlt, Nat.add_zero]
      rw [hdiv]
      dsimp only

/-- C2 (amended): the emitted length matches `Writer::size` except for a
version-1 stream of length zero, which still carries one final tag that
`size` does not account for. -/
theorem C2_size_formula (A : AeadAlg) (hA : AeadOk A) (C : Nat) (hC : 0 < C)
    (ver : Version) (ad salt pfxv : List Nat) (splits : List (List Nat))
    (out : List Nat) (hsalt : salt.length = 32)
    (hpfx : pfxv.length = A.nonceSize - 5)
    (hout : writerOut A C ver ad salt pfxv splits = some out) :
    out.length = WriterSize A C (List.join splits).length ver +
      (if ver = .One ∧ (List.join splits).length = 0 then A.tagSize
       else 0) := by
  obtain ⟨hcond, houteq⟩ := writerOut_char A hA C hC ver ad salt pfxv
    splits out hout
  subst houteq
  have htb : (Version.toBytes ver).length = 4 := by
    cases ver <;> rfl
  have hchunks := exactChunks_full C hC
    (takeCount ver C (List.join splits).length / C) _
    (takeCount_take_length ver C hC (List.join splits))
  have hcl : (List.join
      (exactChunks C ((List.join splits).take
        (takeCount ver C (List.join splits).length)))).length =
      takeCount ver C (List.join splits).length := by
    rw [hchunks.2.2, List.length_take,
      min_eq_left (takeCount_le ver C (List.join splits).length)]
  have hsnoc : encChunksF A pfxv ad 0
      (streamPts ver C (List.join splits)) =
      encNF A pfxv ad 0 (exactChunks C ((List.join splits).take
        (takeCount ver C (List.join splits).length))) ++
      encChunk A ⟨pfxv, 0 + (exactChunks C ((List.join splits).take
        (takeCount ver C (List.join splits).length))).length, 1⟩ ad
        ((List.join splits).drop
          (takeCount ver C (List.join splits).length)) := by
    rw [streamPts, encChunksF_snoc]
  rw [List.length_append, List.length_append, List.length_append, htb,
    hsalt, hpfx, hsnoc, List.length_append, encNF_length A hA,
    encChunk_length A hA, hcl, hchunks.1, List.length_drop]
  have htle := takeCount_le ver C (List.join splits).length
  rw [← Nat.add_assoc, WriterSize_eq A ver C (List.join splits).length hC,
    Nat.add_mul, Nat.one_mul]
  omega

theorem C2_witness :
    ∃ out, writerOut mockAead 2 .One [] (List.replicate 32 0) [] [] =
        some out ∧
      out.length = WriterSize mockAead 2
          (List.join ([] : List (List Nat))).length .One +
        (if Version.One = .One ∧
            (List.join ([] : List (List Nat))).length = 0
         then mockAead.tagSize else 0) :=
  ⟨(writerOut mockAead 2 .One [] (List.replicate 32 0) [] []).get
      (by decide),
   (Option.some_get _).symm,
   C2_size_formula mockAead mockAead_ok 2 (by decide) .One []
     (List.replicate 32 0) [] [] _ (by decide) (by decide)
     (Option.some_get _).symm⟩

/-- C5: version-2 final-chunk rule.  A successful version-2 `do_write`
never leaves the staging buffer full, and when the total plaintext length
is a multiple of `C` (including zero) the emitted stream consists of the
exact `C`-blocks of the plaintext followed by a zero-length terminal chunk
(whose nonce, per `encChunksF`, carries the EOF byte 1), so the final
chunk's plaintext length is strictly less than `C`. -/
theorem C5_version2_final (A : AeadAlg) (hA : AeadOk A) (C : Nat)
    (hC : 0 < C) :
    (∀ (s : List Nat) (w w' : WState), WClean C w → w.ver = .Two →
      w.buf.write < C → doWrite A C w s = some (w', .ok ()) →
      bufIsFull C w'.buf = false) ∧
    (∀ (ad salt pfxv : List Nat) (splits : List (List Nat))
      (out : List Nat), (List.join splits).length % C = 0 →
      writerOut A C .Two ad salt pfxv splits = some out →
      out = (Version.toBytes .Two ++ salt ++ pfxv) ++
        encChunksF A pfxv ad 0
          (exactChunks C (List.join splits) ++ [[]])) := by
  constructor
  · intro s w w' hcl hver hlt hdw
    have hchar := doWriteAux_char A hA C hC (s.length + 2) s w hcl
      (fun _ => hlt) (by omega)
    by_cases hcon : w.ctr + takeCount w.ver C
        (bufContents w.buf ++ s).length / C ≤ u32Max
    · obtain ⟨w2, hrun, _, _, _, _, hwcl2, hv22, _, _, hver2⟩ :=
        hchar.1 hcon
      rw [show doWrite A C w s = doWriteAux A C (s.length + 2) w s from rfl,
        hrun] at hdw
      injection hdw with h
      have h1 : w2 = w' := congrArg Prod.fst h
      rw [h1] at hwcl2 hv22 hver2
      have hwlt : w'.buf.write < C := hv22 (by rw [hver2, hver])
      obtain ⟨hr0', _, _, _, _⟩ := hwcl2
      simp only [bufIsFull, bufLen, beq_eq_false_iff_ne, ne_eq]
      omega
    · obtain ⟨w2, hrun⟩ := hchar.2 hcon
      rw [show doWrite A C w s = doWriteAux A C (s.length + 2) w s from rfl,
        hrun] at hdw
      injection hdw with h
      have h2 := congrArg Prod.snd h
      dsimp only at h2
      exact Except.noConfusion h2
  · intro ad salt pfxv splits out hmod hout
    obtain ⟨hcond, houteq⟩ := writerOut_char A hA C hC .Two ad salt pfxv
      splits out hout
    rw [houteq, streamPts]
    have ht : takeCount .Two C (List.join splits).length =
        (List.join splits).length := by
      simp only [takeCount]
      rw [Nat.div_mul_cancel (Nat.dvd_of_mod_eq_zero hmod)]
    rw [ht, List.take_length, List.drop_length]

theorem C5_witness :
    (∃ w', doWrite mockAead 2 (wInit 2 .Two [] (List.replicate 32 0) [])
        [7, 7] = some (w', .ok ()) ∧ bufIsFull 2 w'.buf = false) ∧
    (∃ out, writerOut mockAead 2 .Two [] (List.replicate 32 0) []
        [[7, 7]] = some out ∧
      out = (Version.toBytes .Two ++ List.replicate 32 0 ++ []) ++
        encChunksF mockAead [] [] 0
          (exactChunks 2 (List.join [[7, 7]]) ++ [[]])) :=
  ⟨⟨((doWrite mockAead 2 (wInit 2 .Two [] (List.replicate 32 0) [])
        [7, 7]).get (by decide)).1,
    by rfl,
    (C5_version2_final mockAead mockAead_ok 2 (by decide)).1 [7, 7]
      (wInit 2 .Two [] (List.replicate 32 0) [])
      ((doWrite mockAead 2 (wInit 2 .Two [] (List.replicate 32 0) [])
        [7, 7]).get (by decide)).1
      (by decide) rfl (by decide) (by rfl)⟩,
   ⟨(writerOut mockAead 2 .Two [] (List.replicate 32 0) []
        [[7, 7]]).get (by decide),
    (Option.some_get _).symm,
    (C5_version2_final mockAead mockAead_ok 2 (by decide)).2 []
      (List.replicate 32 0) [] [[7, 7]] _ (by decide)
      (Option.some_get _).symm⟩⟩

/-- C6 (amended): within one writer lifecycle (construction, any sequence
of writes, one flush), the nonces passed to the AEAD are pairwise
distinct: the non-final chunks use counters 0,1,… with EOF byte 0 and the
final chunk uses the next counter with EOF byte 1.  (Calling `flush`
twice on one stream does reuse the EOF nonce, which is the correction to
the original claim.) -/
theorem C6_nonce_unique (A : AeadAlg) (hA : AeadOk A) (C : Nat) (hC : 0 < C)
    (ver : Version) (ad salt pfxv : List Nat) (splits : List (List Nat))
    (ns : List NonceV)
    (hns : writerNonces A C ver ad salt pfxv splits = some ns) :
    ns.Nodup := by
  rw [writerNonces_char A hA C hC ver ad salt pfxv splits ns hns,
    List.nodup_append]
  refine ⟨?_, List.nodup_singleton _, ?_⟩
  · exact (List.nodup_range _).map
      (fun a b hab => congrArg NonceV.ctr hab)
  · intro x hx hx2
    simp only [List.mem_map, List.mem_range] at hx
    obtain ⟨i, hi, hxi⟩ := hx
    simp only [List.mem_singleton] at hx2
    rw [hx2] at hxi
    have h2 := congrArg NonceV.eofB hxi
    dsimp only at h2
    omega

theorem C6_witness :
    ∃ ns, writerNonces mockAead 2 .Two [] (List.replicate 32 0) []
        [[7, 7, 7]] = some ns ∧ ns.Nodup :=
  ⟨(writerNonces mockAead 2 .Two [] (List.replicate 32 0) []
      [[7, 7, 7]]).get (by decide),
   (Option.some_get _).symm,
   C6_nonce_unique mockAead mockAead_ok 2 (by decide) .Two []
     (List.replicate 32 0) [] [[7, 7, 7]] _ (Option.some_get _).symm⟩
